import Mathlib

/-!
Verification development for a byte-level BPE tokenizer
(`pretokenize.py`, `tokenizer.py`, `train.py`).

Strings are modelled as lists of unicode code points (`TokStr`), byte
sequences as lists of naturals below 256, and Python dicts as
insertion-ordered association lists.
-/

namespace BPE

/-- A Python string, as its list of unicode code points. -/
abbrev TokStr := List Nat

/-- The vocabulary dict `token_string -> id`, insertion ordered. -/
abbrev Vocab := List (TokStr × Nat)

/-- The merge list: `((id_a, id_b), new_id)` in learned (rank) order. -/
abbrev Merges := List ((Nat × Nat) × Nat)

/-- Valid unicode scalar value (what a Python `str` code point can be):
below 0x110000 and not a surrogate. -/
def isValidScalar (c : Nat) : Bool :=
  decide (c < 55296) || (decide (57343 < c) && decide (c < 1114112))

/-! ## Python dict primitives -/

/-- Python dict lookup `d.get(k)` over an insertion-ordered association
list whose keys are unique. -/
def dictGet (d : List (TokStr × Nat)) (k : TokStr) : Option Nat :=
  (d.find? (fun e => decide (e.1 = k))).map (fun e => e.2)

/-- Python dict assignment `d[k] = v`: update the value in place when the
key exists, otherwise append a new entry. -/
def dinsert (d : Vocab) (k : TokStr) (v : Nat) : Vocab :=
  match d with
  | [] => [(k, v)]
  | (k0, v0) :: rest => if k0 = k then (k0, v) :: rest else (k0, v0) :: dinsert rest k v

/-- The reversed dict `id_to_token = {v : k for k, v in vocab.items()}`
followed by a lookup: on duplicate ids the entry written last wins, so the
reversed list is searched. -/
def lookById (voc : Vocab) (i : Nat) : Option TokStr :=
  (voc.reverse.find? (fun e => decide (e.2 = i))).map (fun e => e.1)

/-- The `byte_to_id` table of `Tokenizer._text_to_ids` (and the identical
`byte_to_vocab_id` of `train`): every single-character token whose code
point is below 256 maps its code point to its id, later entries
overwriting earlier ones. -/
def byteToId (voc : Vocab) (b : Nat) : Option Nat :=
  if b < 256 then (voc.reverse.find? (fun e => decide (e.1 = [b]))).map (fun e => e.2)
  else none

/-! ## UTF-8 codec (`str.encode("utf-8")`, `bytes.decode("utf-8", errors="replace")`) -/

/-- UTF-8 encoding of one unicode code point. -/
def utf8EncodeChar (c : Nat) : List Nat :=
  if c < 128 then [c]
  else if c < 2048 then [192 + c / 64, 128 + c % 64]
  else if c < 65536 then [224 + c / 4096, 128 + c / 64 % 64, 128 + c % 64]
  else [240 + c / 262144, 128 + c / 4096 % 64, 128 + c / 64 % 64, 128 + c % 64]

/-- UTF-8 encoding of a string. -/
def utf8Encode (s : TokStr) : List Nat := (s.map utf8EncodeChar).flatten

/-- UTF-8 continuation byte. -/
def isCont (b : Nat) : Bool := decide (128 ≤ b) && decide (b ≤ 191)

/-- Continuation of a two-byte sequence after lead byte `b0`. -/
def utf8Tail2 (b0 : Nat) : List Nat → Option Nat × Nat
  | b1 :: _ =>
    if isCont b1 then (some ((b0 - 192) * 64 + (b1 - 128)), 2) else (none, 1)
  | [] => (none, 1)

/-- Third byte of a three-byte sequence. -/
def utf8Tail3b (b0 b1 : Nat) : List Nat → Option Nat × Nat
  | b2 :: _ =>
    if isCont b2 then (some ((b0 - 224) * 4096 + (b1 - 128) * 64 + (b2 - 128)), 3)
    else (none, 2)
  | [] => (none, 2)

/-- Continuation of a three-byte sequence after lead byte `b0`; the
second-byte range is restricted for `0xE0` (overlong) and `0xED`
(surrogates). -/
def utf8Tail3 (b0 : Nat) : List Nat → Option Nat × Nat
  | b1 :: rest1 =>
    if (if b0 = 224 then 160 else 128) ≤ b1 ∧ b1 ≤ (if b0 = 237 then 159 else 191) then
      utf8Tail3b b0 b1 rest1
    else (none, 1)
  | [] => (none, 1)

/-- Fourth byte of a four-byte sequence. -/
def utf8Tail4c (b0 b1 b2 : Nat) : List Nat → Option Nat × Nat
  | b3 :: _ =>
    if isCont b3 then
      (some ((b0 - 240) * 262144 + (b1 - 128) * 4096 + (b2 - 128) * 64 + (b3 - 128)), 4)
    else (none, 3)
  | [] => (none, 3)

/-- Third byte of a four-byte sequence. -/
def utf8Tail4b (b0 b1 : Nat) : List Nat → Option Nat × Nat
  | b2 :: rest2 => if isCont b2 then utf8Tail4c b0 b1 b2 rest2 else (none, 2)
  | [] => (none, 2)

/-- Continuation of a four-byte sequence after lead byte `b0`; the
second-byte range is restricted for `0xF0` (overlong) and `0xF4`
(code points beyond U+10FFFF). -/
def utf8Tail4 (b0 : Nat) : List Nat → Option Nat × Nat
  | b1 :: rest1 =>
    if (if b0 = 240 then 144 else 128) ≤ b1 ∧ b1 ≤ (if b0 = 244 then 143 else 191) then
      utf8Tail4b b0 b1 rest1
    else (none, 1)
  | [] => (none, 1)

/-- Decode one UTF-8 sequence from the head of a byte list: the code point
and the number of bytes consumed, or `none` together with the length of the
maximal invalid subpart (at least one byte) that `errors="replace"` turns
into a single U+FFFD. Overlong encodings and surrogates are rejected via
the restricted second-byte ranges. -/
def utf8Step : List Nat → Option Nat × Nat
  | [] => (none, 1)
  | b0 :: rest =>
    if b0 < 128 then (some b0, 1)
    else if 194 ≤ b0 ∧ b0 ≤ 223 then utf8Tail2 b0 rest
    else if 224 ≤ b0 ∧ b0 ≤ 239 then utf8Tail3 b0 rest
    else if 240 ≤ b0 ∧ b0 ≤ 244 then utf8Tail4 b0 rest
    else (none, 1)

/-- Fuel-indexed UTF-8 decoding with replacement; each step consumes at
least one byte, so fuel equal to the byte count suffices. -/
def utf8DecodeReplaceFuel : Nat → List Nat → List Nat
  | 0, _ => []
  | _, [] => []
  | fuel + 1, b :: bs =>
    match utf8Step (b :: bs) with
    | (oc, k) => oc.getD 65533 :: utf8DecodeReplaceFuel fuel ((b :: bs).drop k)

/-- `bytes.decode("utf-8", errors="replace")`. -/
def utf8DecodeReplace (bs : List Nat) : List Nat := utf8DecodeReplaceFuel bs.length bs

/-- `str.encode("latin-1")`: succeeds exactly when every code point is
below 256, in which case the bytes are the code points themselves;
otherwise `UnicodeEncodeError` is raised. -/
def latin1Encode (s : TokStr) : Option (List Nat) :=
  if s.all (fun c => decide (c < 256)) then some s else none

/-! ## Segmenter (`pretokenize.py`)

The pattern
`'(?i:[sdmt]|ll|ve|re)| ?\p{L}+| ?\p{N}| ?[^\s\p{L}\p{N}]+[\r\n]*|\s*[\r\n]|\s+(?!\S)|\s+`
is modelled with the unicode character categories abstracted into a
classification function `cls` (letter for `\p{L}`, number for `\p{N}`,
space for `\s`, other for the rest); the literal characters of the pattern
(space, apostrophe, `\r`, `\n`, the contraction letters) are concrete code
points, and `(?i:...)` is modelled by ASCII case folding. -/

/-- Character class used by the segmentation pattern. -/
inductive CharClass
  | letter
  | number
  | space
  | other
deriving DecidableEq

/-- ASCII case folding for the case-insensitive contraction group. -/
def asciiLower (c : Nat) : Nat := if 65 ≤ c ∧ c ≤ 90 then c + 32 else c

/-- The `\p{L}` test under the classification `cls`. -/
def isLetterB (cls : Nat → CharClass) (c : Nat) : Bool := decide (cls c = CharClass.letter)

/-- The `\s` test under the classification `cls`. -/
def isSpaceB (cls : Nat → CharClass) (c : Nat) : Bool := decide (cls c = CharClass.space)

/-- The `[^\s\p{L}\p{N}]` test under the classification `cls`. -/
def isOtherB (cls : Nat → CharClass) (c : Nat) : Bool := decide (cls c = CharClass.other)

/-- The literal `[\r\n]` test. -/
def isNlB (c : Nat) : Bool := decide (c = 13 ∨ c = 10)

/-- Length of the maximal run of characters satisfying `p` at the head. -/
def takeRun (p : Nat → Bool) : TokStr → Nat
  | [] => 0
  | c :: rest => if p c then takeRun p rest + 1 else 0

/-- Alternative 1, `'(?i:[sdmt]|ll|ve|re)`: an apostrophe followed by a
contraction suffix; single-letter branches are tried before two-letter
ones. Returns the match length. -/
def altContraction (s : TokStr) : Option Nat :=
  match s with
  | 39 :: c1 :: rest =>
    if asciiLower c1 = 115 ∨ asciiLower c1 = 100 ∨ asciiLower c1 = 109 ∨
       asciiLower c1 = 116 then some 2
    else
      match rest with
      | c2 :: _ =>
        if (asciiLower c1 = 108 ∧ asciiLower c2 = 108) ∨
           (asciiLower c1 = 118 ∧ asciiLower c2 = 101) ∨
           (asciiLower c1 = 114 ∧ asciiLower c2 = 101) then some 3
        else none
      | [] => none
  | _ => none

/-- Alternative 2, ` ?\p{L}+`: an optional literal space then a greedy run
of letters; when no letter follows the space, the optional space
backtracks to empty and the run is retried from the start. -/
def altLetters (cls : Nat → CharClass) (s : TokStr) : Option Nat :=
  match s with
  | 32 :: rest =>
    if 1 ≤ takeRun (isLetterB cls) rest then some (takeRun (isLetterB cls) rest + 1)
    else if 1 ≤ takeRun (isLetterB cls) s then some (takeRun (isLetterB cls) s) else none
  | _ =>
    if 1 ≤ takeRun (isLetterB cls) s then some (takeRun (isLetterB cls) s) else none

/-- Alternative 3, ` ?\p{N}`: an optional literal space then exactly one
number character, with the same backtracking as alternative 2. -/
def altNumber (cls : Nat → CharClass) (s : TokStr) : Option Nat :=
  match s with
  | 32 :: c :: _ =>
    if cls c = CharClass.number then some 2
    else if cls 32 = CharClass.number then some 1 else none
  | c :: _ => if cls c = CharClass.number then some 1 else none
  | [] => none

/-- Alternative 4, ` ?[^\s\p{L}\p{N}]+[\r\n]*`: an optional literal space,
a greedy nonempty run of characters that are neither whitespace nor
letters nor numbers, then any run of literal `\r`/`\n`. -/
def altOther (cls : Nat → CharClass) (s : TokStr) : Option Nat :=
  match s with
  | 32 :: rest =>
    if 1 ≤ takeRun (isOtherB cls) rest then
      some (1 + takeRun (isOtherB cls) rest +
        takeRun isNlB (rest.drop (takeRun (isOtherB cls) rest)))
    else if 1 ≤ takeRun (isOtherB cls) s then
      some (takeRun (isOtherB cls) s + takeRun isNlB (s.drop (takeRun (isOtherB cls) s)))
    else none
  | _ =>
    if 1 ≤ takeRun (isOtherB cls) s then
      some (takeRun (isOtherB cls) s + takeRun isNlB (s.drop (takeRun (isOtherB cls) s)))
    else none

/-- Backtracking search for alternative 5, `\s*[\r\n]`: the largest `j`
not exceeding the whitespace run such that the character at index `j` is a
literal line break; the match consumes `j + 1` characters. -/
def searchNl (s : TokStr) : Nat → Option Nat
  | 0 => match s with
    | c :: _ => if c = 13 ∨ c = 10 then some 1 else none
    | [] => none
  | j + 1 =>
    match s.get? (j + 1) with
    | some c => if c = 13 ∨ c = 10 then some (j + 2) else searchNl s j
    | none => searchNl s j

/-- Alternative 5, `\s*[\r\n]`. -/
def altSpaceNl (cls : Nat → CharClass) (s : TokStr) : Option Nat :=
  match s with
  | [] => none
  | _ => searchNl s (min (takeRun (isSpaceB cls) s) (s.length - 1))

/-- Alternative 6, `\s+(?!\S)`: a greedy nonempty whitespace run not
followed by non-whitespace; when followed by non-whitespace it backtracks
by one character (possible only when the run has length at least two). -/
def altSpaceEnd (cls : Nat → CharClass) (s : TokStr) : Option Nat :=
  if takeRun (isSpaceB cls) s = 0 then none
  else if takeRun (isSpaceB cls) s = s.length then some (takeRun (isSpaceB cls) s)
  else if 2 ≤ takeRun (isSpaceB cls) s then some (takeRun (isSpaceB cls) s - 1)
  else none

/-- Alternative 7, `\s+`. -/
def altSpace (cls : Nat → CharClass) (s : TokStr) : Option Nat :=
  if 1 ≤ takeRun (isSpaceB cls) s then some (takeRun (isSpaceB cls) s) else none

/-- Try the seven alternatives of the pattern in order at the head of the
input, returning the match length. -/
def matchAt (cls : Nat → CharClass) (s : TokStr) : Option Nat :=
  (altContraction s).orElse (fun _ =>
  (altLetters cls s).orElse (fun _ =>
  (altNumber cls s).orElse (fun _ =>
  (altOther cls s).orElse (fun _ =>
  (altSpaceNl cls s).orElse (fun _ =>
  (altSpaceEnd cls s).orElse (fun _ =>
  altSpace cls s))))))

/-- Fuel-indexed `re.findall` scan: take the match at the current
position, or skip one character when no match starts here (on the empty
remainder no alternative matches, so the scan just runs out). -/
def pretokFuel (cls : Nat → CharClass) : Nat → TokStr → List TokStr
  | 0, _ => []
  | fuel + 1, s =>
    match matchAt cls s with
    | some k => s.take k :: pretokFuel cls fuel (s.drop k)
    | none => pretokFuel cls fuel (s.drop 1)

/-- `pretokenize`: `re.findall(PATTERN, text)`. -/
def pretokenize (cls : Nat → CharClass) (s : TokStr) : List TokStr :=
  pretokFuel cls s.length s

/-- A classification under which every code point is a letter; concrete
witness inputs below are all-letter words, for which any classification
marking ASCII letters as letters yields the same single chunk. -/
def lettersCls : Nat → CharClass := fun _ => CharClass.letter

/-! ## The tokenizer (`tokenizer.py`) -/

/-- The token string `"<PAD>"`. -/
def padName : TokStr := [60, 80, 65, 68, 62]

/-- The token string `"<UNK>"`. -/
def unkName : TokStr := [60, 85, 78, 75, 62]

/-- The token string `"<BOS>"`. -/
def bosName : TokStr := [60, 66, 79, 83, 62]

/-- The token string `"<EOS>"`. -/
def eosName : TokStr := [60, 69, 79, 83, 62]

/-- `SPECIAL_TOKENS` of `train.py`. -/
def specialTokensList : List (TokStr × Nat) :=
  [(padName, 0), (unkName, 1), (bosName, 2), (eosName, 3)]

/-- `build_base_vocab`: the four special tokens, then the 256 single-byte
tokens `bytes([b]).decode("latin-1")` (code point `b`), each assigned the
next id `len(vocab)`, so byte `b` gets id `4 + b`. -/
def baseVocab : Vocab :=
  specialTokensList ++ (List.range 256).map (fun b => ([b], 4 + b))

/-- The tokenizer state built by `Tokenizer.__init__`. -/
structure Tokenizer where
  vocab : Vocab
  merges : Merges
  specialTokens : List (TokStr × Nat)

/-- The merge lookup `merge_map = {pair : new_id for pair, new_id in
merges}`: on duplicate pairs the last entry wins. -/
def mergeMapGet (ms : Merges) (p : Nat × Nat) : Option Nat :=
  (ms.reverse.find? (fun e => decide (e.1 = p))).map (fun e => e.2)

/-- The merge position computed by `next(i for i, (p, _) in
enumerate(self.merges) if p == pair)`: the index of the first rule with
the given pair. -/
def rankOf (ms : Merges) (p : Nat × Nat) : Nat :=
  ms.findIdx (fun e => decide (e.1 = p))

/-- `Tokenizer._text_to_ids`: UTF-8 encode the chunk and map every byte
through `byte_to_id`; a byte without a base token raises `KeyError`. -/
def textToIds (voc : Vocab) (chunk : TokStr) : Except Unit (List Nat) :=
  (utf8Encode chunk).mapM (fun b =>
    match byteToId voc b with
    | some i => Except.ok i
    | none => Except.error ())

/-- The list `pairs = [(ids[i], ids[i+1], i) for i in range(len(ids) - 1)]`
of `Tokenizer._apply_merges`, position first. -/
def indexedPairs : Nat → List Nat → List (Nat × (Nat × Nat))
  | _, [] => []
  | _, [_] => []
  | i, a :: b :: rest => (i, (a, b)) :: indexedPairs (i + 1) (b :: rest)

/-- The selection pass of `Tokenizer._apply_merges`: scan all adjacent
positions in order, keeping the pair with the strictly smallest merge
position (so rank ties keep the earliest position); for the kept pair the
`merge_map` value is also recorded. Returns `(pair, new_id, position,
rank)`. -/
def findBest (ms : Merges) (ids : List Nat) : Option ((Nat × Nat) × Nat × Nat × Nat) :=
  (indexedPairs 0 ids).foldl
    (fun best pp =>
      match mergeMapGet ms pp.2 with
      | none => best
      | some nid =>
        match best with
        | none => some (pp.2, nid, pp.1, rankOf ms pp.2)
        | some b =>
          if rankOf ms pp.2 < b.2.2.2 then some (pp.2, nid, pp.1, rankOf ms pp.2) else best)
    none

/-- Fuel-indexed loop of `Tokenizer._apply_merges`: while at least two ids
remain, find the best pair and splice in its `new_id`; every step shortens
the list by one, so fuel equal to the length suffices. -/
def applyMergesFuel (ms : Merges) : Nat → List Nat → List Nat
  | 0, ids => ids
  | fuel + 1, ids =>
    if 2 ≤ ids.length then
      match findBest ms ids with
      | none => ids
      | some (_, nid, pos, _) =>
        applyMergesFuel ms fuel (ids.take pos ++ nid :: ids.drop (pos + 2))
    else ids

/-- `Tokenizer._apply_merges`. -/
def applyMerges (ms : Merges) (ids : List Nat) : List Nat :=
  applyMergesFuel ms ids.length ids

/-- `Tokenizer.encode`: pretokenize, encode each chunk independently
(base ids then merges), concatenate, and optionally wrap in BOS/EOS. -/
def encode (cls : Nat → CharClass) (tok : Tokenizer) (text : TokStr)
    (addSpecial : Bool) : Except Unit (List Nat) := do
  let idss ← (pretokenize cls text).mapM (fun chunk => do
    let chunkIds ← textToIds tok.vocab chunk
    pure (applyMerges tok.merges chunkIds))
  let allIds := idss.flatten
  if addSpecial then
    match dictGet tok.specialTokens bosName, dictGet tok.specialTokens eosName with
    | some b, some e => pure (b :: allIds ++ [e])
    | _, _ => Except.error ()
  else
    pure allIds

/-- Per-id lookup of `Tokenizer.decode`: a known id maps to its token
string, an unknown id to the `<UNK>` token's string (two dict accesses
that raise when absent). -/
def tokenFor (tok : Tokenizer) (i : Nat) : Except Unit TokStr :=
  match lookById tok.vocab i with
  | some t => Except.ok t
  | none =>
    match dictGet tok.specialTokens unkName with
    | none => Except.error ()
    | some u =>
      match lookById tok.vocab u with
      | some t => Except.ok t
      | none => Except.error ()

/-- The final conversion of `Tokenizer.decode`: `text.encode("latin-1")`
then `.decode("utf-8", errors="replace")`, with the bare `except`
returning the concatenated token text unchanged when the latin-1 step
raises. -/
def finalStage (text : TokStr) : TokStr :=
  match latin1Encode text with
  | some bs => utf8DecodeReplace bs
  | none => text

/-- `Tokenizer.decode`. -/
def decode (tok : Tokenizer) (ids : List Nat) (skipSpecial : Bool) :
    Except Unit TokStr := do
  let ids1 := if skipSpecial then
    ids.filter (fun i => !((tok.specialTokens.map (fun e => e.2)).contains i))
  else ids
  let tokens ← ids1.mapM (tokenFor tok)
  pure (finalStage tokens.flatten)

/-- `Tokenizer.id_to_token_str`: the method body consists only of a
docstring, so the call falls through and returns `None` for every id. -/
def idToTokenStr (_tok : Tokenizer) (_i : Nat) : Option TokStr := none

/-! ## The vocabulary produced by training (for claims about a tokenizer
whose vocabulary is the base vocabulary extended by learned merges) -/

/-- The trainer's vocabulary update, one recorded merge at a time
(`train.py`: `new_token = id_to_token[a] + id_to_token[b]`;
`vocab[new_token] = new_id`); a missing parent id would raise, modelled
with a default that well-formed merge lists never hit. -/
def extendVocab : Vocab → Merges → Vocab
  | voc, [] => voc
  | voc, ((a, b), nid) :: rest =>
    extendVocab (dinsert voc ((lookById voc a).getD [] ++ (lookById voc b).getD []) nid) rest

/-- Well-formedness of a learned merge list relative to the growing
vocabulary, per the data model of the spec (§3): each rule merges two
existing non-special ids, assigns the next dense id `len(vocab)`, and
creates a token string not already present. -/
def validExtB : Vocab → Merges → Bool
  | _, [] => true
  | voc, ((a, b), nid) :: rest =>
    match lookById voc a, lookById voc b with
    | some ta, some tb =>
      decide (4 ≤ a) && decide (4 ≤ b) && decide (nid = voc.length) &&
      (voc.find? (fun e => decide (e.1 = ta ++ tb))).isNone &&
      validExtB (dinsert voc (ta ++ tb) nid) rest
    | _, _ => false

/-- Well-formed learned merges over the base vocabulary. -/
def validMerges (ms : Merges) : Bool := validExtB baseVocab ms

/-- The tokenizer whose vocabulary is the base vocabulary extended by the
learned merges, with the fixed special tokens. -/
def mkTokenizer (ms : Merges) : Tokenizer :=
  { vocab := extendVocab baseVocab ms, merges := ms, specialTokens := specialTokensList }

/-! ## The spec's description of merge application (§4.4), for the
refinement claim C2 -/

/-- The adjacent pairs of a sequence, in position order. -/
def adjPairs : List Nat → List (Nat × Nat)
  | a :: b :: rest => (a, b) :: adjPairs (b :: rest)
  | _ => []

/-- Modelled from the spec (§4.4): among all adjacent pairs currently
present in the sequence, the one whose merge rule has the lowest rank. -/
def specBestPair (ms : Merges) (ids : List Nat) : Option (Nat × Nat) :=
  ((adjPairs ids).filter (fun p => (mergeMapGet ms p).isSome)).foldl
    (fun best p =>
      match best with
      | none => some p
      | some q => if rankOf ms p < rankOf ms q then some p else best)
    none

/-- Modelled from the spec (§4.4): replace the leftmost occurrence of the
pair `p` with `nid`. -/
def replaceLeftmost (p : Nat × Nat) (nid : Nat) : List Nat → List Nat
  | [] => []
  | [a] => [a]
  | a :: b :: rest =>
    if (a, b) = p then nid :: rest else a :: replaceLeftmost p nid (b :: rest)

/-- Modelled from the spec (§4.4): repeatedly find the present pair of
lowest rank, stop when no present pair has a rule, otherwise replace its
leftmost occurrence with the rule's `new_id` and repeat. -/
def specApplyMergesFuel (ms : Merges) : Nat → List Nat → List Nat
  | 0, ids => ids
  | fuel + 1, ids =>
    match specBestPair ms ids with
    | none => ids
    | some p =>
      match mergeMapGet ms p with
      | some nid => specApplyMergesFuel ms fuel (replaceLeftmost p nid ids)
      | none => ids

/-- The spec's merge application (§4.4). -/
def specApplyMerges (ms : Merges) (ids : List Nat) : List Nat :=
  specApplyMergesFuel ms ids.length ids

/-- Whether an indexed pair has a merge rule. -/
def presentB (ms : Merges) (x : Nat × (Nat × Nat)) : Bool := (mergeMapGet ms x.2).isSome

/-- The record `findBest` keeps for an indexed pair. -/
def dRec (ms : Merges) (x : Nat × (Nat × Nat)) : (Nat × Nat) × Nat × Nat × Nat :=
  (x.2, (mergeMapGet ms x.2).getD 0, x.1, rankOf ms x.2)

/-- The common core of both selection passes: the first element of
minimal rank (strictly smaller ranks replace the current best). -/
def minRankFold (ms : Merges) (l : List (Nat × (Nat × Nat)))
    (acc : Option (Nat × (Nat × Nat))) : Option (Nat × (Nat × Nat)) :=
  l.foldl
    (fun best x =>
      match best with
      | none => some x
      | some b => if rankOf ms x.2 < rankOf ms b.2 then some x else best)
    acc

/-! ## Loading merges from disk (`Tokenizer.from_pretrained`) -/

/-- Code points that `str.isspace` accepts (the whitespace used by
`str.strip()` and `str.split()`). -/
def pyIsSpace (c : Nat) : Bool :=
  [9, 10, 11, 12, 13, 28, 29, 30, 31, 32, 133, 160, 5760,
   8192, 8193, 8194, 8195, 8196, 8197, 8198, 8199, 8200, 8201, 8202,
   8232, 8233, 8239, 8287, 12288].contains c

/-- `str.strip()`. -/
def pyStrip (s : TokStr) : TokStr :=
  ((s.dropWhile pyIsSpace).reverse.dropWhile pyIsSpace).reverse

/-- Fuel-indexed worker for `str.split()`: drop leading whitespace, take
the next maximal non-whitespace field, repeat. -/
def pySplitFuel : Nat → TokStr → List TokStr
  | 0, _ => []
  | fuel + 1, s =>
    match s.dropWhile pyIsSpace with
    | [] => []
    | c :: rest =>
      ((c :: rest).takeWhile (fun d => !pyIsSpace d)) ::
        pySplitFuel fuel ((c :: rest).dropWhile (fun d => !pyIsSpace d))

/-- `str.split()` with no arguments. -/
def pySplit (s : TokStr) : List TokStr := pySplitFuel s.length s

/-- One step of `int(s)` over an accumulator: a decimal digit extends the
value, anything else fails. -/
def digitAcc : Option Nat → Nat → Option Nat
  | none, _ => none
  | some acc, c => if 48 ≤ c ∧ c ≤ 57 then some (acc * 10 + (c - 48)) else none

/-- Value of a nonempty all-digit string. -/
def digitsVal : TokStr → Option Nat
  | [] => none
  | c :: rest => (c :: rest).foldl digitAcc (some 0)

/-- `int(field)` on a whitespace-free field: an optional sign followed by
at least one ASCII decimal digit (a `ValueError` otherwise). -/
def pyInt (s : TokStr) : Option Int :=
  match s with
  | 45 :: rest => (digitsVal rest).map (fun n => -(n : Int))
  | 43 :: rest => (digitsVal rest).map (fun n => (n : Int))
  | _ => (digitsVal s).map (fun n => (n : Int))

/-- The merges-loading loop of `Tokenizer.from_pretrained`: for each line
take `line.strip().split()`; a line with exactly three fields is parsed
with `int` — a non-integer field raises `ValueError`, aborting the load —
and appended; every other line is skipped. -/
def loadMerges (lines : List TokStr) : Except Unit (List ((Int × Int) × Int)) :=
  lines.foldlM
    (fun acc line =>
      let parts := pySplit (pyStrip line)
      if parts.length = 3 then
        match parts.mapM pyInt with
        | some [a, b, n] => Except.ok (acc ++ [((a, b), n)])
        | _ => Except.error ()
      else Except.ok acc)
    []

/-- The record a merge-file line contributes when loading succeeds: three
parseable fields give a rule, any other field count gives nothing. -/
def parseRec (line : TokStr) : Option ((Int × Int) × Int) :=
  let parts := pySplit (pyStrip line)
  if parts.length = 3 then
    match parts.mapM pyInt with
    | some [a, b, n] => some ((a, b), n)
    | _ => none
  else none

/-- A line on which the loading loop cannot raise: either not exactly
three fields, or three integer-parseable fields. -/
def lineOk (line : TokStr) : Bool :=
  let parts := pySplit (pyStrip line)
  decide (parts.length ≠ 3) || (parts.mapM pyInt).isSome

/-! ## Training (`train.py`) -/

/-- An insertion-ordered `Counter` over id pairs. -/
abbrev Counter := List ((Nat × Nat) × Nat)

/-- `counter[pair] += n`: bump an existing key in place or append it. -/
def counterBumpBy (c : Counter) (p : Nat × Nat) (n : Nat) : Counter :=
  match c with
  | [] => [(p, n)]
  | (q, m) :: rest =>
    if q = p then (q, m + n) :: rest else (q, m) :: counterBumpBy rest p n

/-- Count the adjacent pairs of one chunk into an accumulator
(`count_pairs` inner loop). -/
def countChunk (c : Counter) : List Nat → Counter
  | a :: b :: rest => countChunk (counterBumpBy c (a, b) 1) (b :: rest)
  | _ => c

/-- `count_pairs`: adjacent-pair counts over the corpus, keys in order of
first appearance. -/
def countPairs (chunks : List (List Nat)) : Counter := chunks.foldl countChunk []

/-- `Counter.update(other)`: add the other counter's entries in order,
existing keys keeping their position. -/
def counterUpdate (c : Counter) (d : Counter) : Counter :=
  d.foldl (fun acc e => counterBumpBy acc e.1 e.2) c

/-- The worker slices `corpus_chunks[i : i + cs]` for `i in
range(0, len, cs)`, fuel-indexed. -/
def slicesFuel : Nat → List (List Nat) → Nat → List (List (List Nat))
  | 0, _, _ => []
  | _, [], _ => []
  | fuel + 1, l, cs => l.take cs :: slicesFuel fuel (l.drop cs) cs

/-- `count_pairs_parallel`: small corpora are counted directly; larger
ones are split into `len // 4` sized slices whose counters are merged in
order (the process pool maps in order, so the result is deterministic). -/
def countPairsParallel (chunks : List (List Nat)) : Counter :=
  if chunks.length < 1000 then countPairs chunks
  else
    ((slicesFuel chunks.length chunks (chunks.length / 4)).map countPairs).foldl
      counterUpdate []

/-- `max(pair_counts, key=lambda p: pair_counts[p])`: the first key of
maximal count in counter order (strictly greater counts replace). -/
def counterMax (c : Counter) : Option ((Nat × Nat) × Nat) :=
  c.foldl
    (fun best e =>
      match best with
      | none => some e
      | some b => if e.2 > b.2 then some e else best)
    none

/-- The per-chunk rewrite of `merge_pair`: scan left to right; on a match
both elements are consumed (`i += 2`), otherwise one element is kept. -/
def mergeChunk (p : Nat × Nat) (nid : Nat) : List Nat → List Nat
  | [] => []
  | [a] => [a]
  | a :: b :: rest =>
    if (a, b) = p then nid :: mergeChunk p nid rest
    else a :: mergeChunk p nid (b :: rest)

/-- `merge_pair`: rewrite every chunk of the corpus. -/
def mergePair (chunks : List (List Nat)) (p : Nat × Nat) (nid : Nat) :
    List (List Nat) :=
  chunks.map (mergeChunk p nid)

/-- The mutable state of the training loop. -/
structure TrainState where
  vocab : Vocab
  merges : Merges
  corpus : List (List Nat)

/-- The BPE merge loop of `train`: each iteration counts the pairs, stops
when none remain, otherwise records the most frequent pair as a new rule
`(pair, len(vocab))`, inserts its concatenated token string into the
vocabulary dict, and rewrites the corpus; a parent id missing from the
reverse vocabulary would raise `KeyError`. -/
def trainLoop : Nat → TrainState → Except Unit TrainState
  | 0, st => Except.ok st
  | fuel + 1, st =>
    match counterMax (countPairsParallel st.corpus) with
    | none => Except.ok st
    | some (bp, _) =>
      match lookById st.vocab bp.1, lookById st.vocab bp.2 with
      | some ta, some tb =>
        trainLoop fuel
          { vocab := dinsert st.vocab (ta ++ tb) st.vocab.length,
            merges := st.merges ++ [(bp, st.vocab.length)],
            corpus := mergePair st.corpus bp st.vocab.length }
      | _, _ => Except.error ()

/-- The three artifacts `save_tokenizer` writes (`vocab.json`,
`merges.txt`, and the reported fields of `config.json`). -/
structure Artifacts where
  vocab : Vocab
  merges : Merges
  configVocabSize : Nat
  configNumMerges : Nat

/-- `train`: pretokenize the corpus text, build the base vocabulary,
convert each chunk to base ids, and abort (`print("Error"); return`,
writing no files — the result `none`) when the requested vocabulary size
allows no merges; otherwise run the merge loop and save the artifacts. -/
def train (cls : Nat → CharClass) (text : TokStr) (vocabSize : Int) :
    Except Unit (Option Artifacts) := do
  let stringChunks := pretokenize cls text
  let vocab := baseVocab
  let corpus ← stringChunks.mapM (textToIds vocab)
  let numMerges : Int := vocabSize - (vocab.length : Int)
  if numMerges ≤ 0 then
    pure none
  else do
    let st ← trainLoop numMerges.toNat { vocab := vocab, merges := [], corpus := corpus }
    pure (some
      { vocab := st.vocab, merges := st.merges,
        configVocabSize := st.vocab.length, configNumMerges := st.merges.length })

/-- The byte string an id sequence denotes: each id's token string (all
code points below 256 for reachable ids), concatenated. -/
def flatStr (voc : Vocab) (ids : List Nat) : List Nat :=
  (ids.map (fun i => (lookById voc i).getD [])).flatten

/-- Invariants of a vocabulary reachable from the base vocabulary by
recorded merges: every non-special token is a nonempty string of code
points below 256, and every id is below the dict size (ids are dense). -/
structure GoodV (voc : Vocab) : Prop where
  tok_bytes : ∀ e ∈ voc, 4 ≤ e.2 → e.1 ≠ [] ∧ ∀ c ∈ e.1, c < 256
  ids_lt : ∀ e ∈ voc, e.2 < voc.length

/-! ## Lemmas about the segmenter -/

lemma orElse_some_elim {a : Option Nat} {f : Unit → Option Nat} {k : Nat}
    (h : a.orElse f = some k) : a = some k ∨ f () = some k := by
  cases a with
  | none => exact Or.inr h
  | some v => exact Or.inl h

lemma orElse_isSome (a : Option Nat) (f : Unit → Option Nat) :
    (a.orElse f).isSome = (a.isSome || (f ()).isSome) := by
  cases a <;> rfl

lemma altContraction_pos : ∀ {s k}, altContraction s = some k → 1 ≤ k := by
  intro s k h
  unfold altContraction at h
  repeat' split at h
  all_goals first
    | exact Option.noConfusion h
    | (injection h with h; omega)

lemma altLetters_pos (cls : Nat → CharClass) : ∀ {s k}, altLetters cls s = some k → 1 ≤ k := by
  intro s k h
  unfold altLetters at h
  repeat' split at h
  all_goals first
    | exact Option.noConfusion h
    | (injection h with h; omega)

lemma altNumber_pos (cls : Nat → CharClass) : ∀ {s k}, altNumber cls s = some k → 1 ≤ k := by
  intro s k h
  unfold altNumber at h
  repeat' split at h
  all_goals first
    | exact Option.noConfusion h
    | (injection h with h; omega)

lemma altOther_pos (cls : Nat → CharClass) : ∀ {s k}, altOther cls s = some k → 1 ≤ k := by
  intro s k h
  unfold altOther at h
  repeat' split at h
  all_goals first
    | exact Option.noConfusion h
    | (injection h with h; omega)

lemma searchNl_pos : ∀ {s j k}, searchNl s j = some k → 1 ≤ k := by
  intro s j
  induction j with
  | zero =>
    intro k h
    unfold searchNl at h
    repeat' split at h
    all_goals first
      | exact Option.noConfusion h
      | (injection h with h; omega)
  | succ n ih =>
    intro k h
    unfold searchNl at h
    repeat' split at h
    all_goals first
      | exact Option.noConfusion h
      | (injection h with h; omega)
      | exact ih h

lemma altSpaceNl_pos (cls : Nat → CharClass) : ∀ {s k}, altSpaceNl cls s = some k → 1 ≤ k := by
  intro s k h
  unfold altSpaceNl at h
  repeat' split at h
  all_goals first
    | exact Option.noConfusion h
    | exact searchNl_pos h

lemma altSpaceEnd_pos (cls : Nat → CharClass) : ∀ {s k}, altSpaceEnd cls s = some k → 1 ≤ k := by
  intro s k h
  unfold altSpaceEnd at h
  repeat' split at h
  all_goals first
    | exact Option.noConfusion h
    | (injection h with h; omega)

lemma altSpace_pos (cls : Nat → CharClass) : ∀ {s k}, altSpace cls s = some k → 1 ≤ k := by
  intro s k h
  unfold altSpace at h
  repeat' split at h
  all_goals first
    | exact Option.noConfusion h
    | (injection h with h; omega)

lemma matchAt_pos (cls : Nat → CharClass) {s : TokStr} {k : Nat}
    (h : matchAt cls s = some k) : 1 ≤ k := by
  unfold matchAt at h
  rcases orElse_some_elim h with h | h
  · exact altContraction_pos h
  rcases orElse_some_elim h with h | h
  · exact altLetters_pos cls h
  rcases orElse_some_elim h with h | h
  · exact altNumber_pos cls h
  rcases orElse_some_elim h with h | h
  · exact altOther_pos cls h
  rcases orElse_some_elim h with h | h
  · exact altSpaceNl_pos cls h
  rcases orElse_some_elim h with h | h
  · exact altSpaceEnd_pos cls h
  exact altSpace_pos cls h

lemma takeRun_head_pos {p : Nat → Bool} {c : Nat} (s : TokStr) (h : p c = true) :
    1 ≤ takeRun p (c :: s) := by
  simp [takeRun, h]

lemma altLetters_isSome (cls : Nat → CharClass) {c : Nat} (s : TokStr)
    (h : isLetterB cls c = true) : (altLetters cls (c :: s)).isSome = true := by
  by_cases h32 : c = 32
  · subst h32
    unfold altLetters
    split
    · rename_i rest heq
      injection heq with h1 h2
      subst h2
      by_cases hr : 1 ≤ takeRun (isLetterB cls) s
      · simp [hr]
      · rw [if_neg hr, if_pos (takeRun_head_pos s h)]
        simp
    · rename_i hx
      exact absurd rfl (hx s)
  · unfold altLetters
    split
    · rename_i rest heq
      injection heq with h1 h2
      exact absurd h1 h32
    · rw [if_pos (takeRun_head_pos s h)]
      simp

lemma altNumber_isSome (cls : Nat → CharClass) {c : Nat} (s : TokStr)
    (h : cls c = CharClass.number) : (altNumber cls (c :: s)).isSome = true := by
  unfold altNumber
  split
  · rename_i c2 rest heq
    injection heq with h1 h2
    subst h1
    subst h2
    rw [h]
    split
    · simp
    · simp [if_pos h]
  · rename_i c2 rest heq
    injection heq with h1 h2
    subst h1
    rw [if_pos h]
    simp
  · rename_i heq
    exact absurd heq (by simp)

lemma altOther_isSome (cls : Nat → CharClass) {c : Nat} (s : TokStr)
    (h : isOtherB cls c = true) : (altOther cls (c :: s)).isSome = true := by
  by_cases h32 : c = 32
  · subst h32
    unfold altOther
    split
    · rename_i rest heq
      injection heq with h1 h2
      subst h2
      by_cases hr : 1 ≤ takeRun (isOtherB cls) s
      · simp [hr]
      · rw [if_neg hr, if_pos (takeRun_head_pos s h)]
        simp
    · rename_i hx
      exact absurd rfl (hx s)
  · unfold altOther
    split
    · rename_i rest heq
      injection heq with h1 h2
      exact absurd h1 h32
    · rw [if_pos (takeRun_head_pos s h)]
      simp

lemma altSpace_isSome (cls : Nat → CharClass) {c : Nat} (s : TokStr)
    (h : isSpaceB cls c = true) : (altSpace cls (c :: s)).isSome = true := by
  unfold altSpace
  rw [if_pos (takeRun_head_pos s h)]
  simp

lemma matchAt_isSome (cls : Nat → CharClass) (c : Nat) (s : TokStr) :
    (matchAt cls (c :: s)).isSome = true := by
  unfold matchAt
  simp only [orElse_isSome, Bool.or_eq_true]
  rcases hcc : cls c with h | h | h | h
  · exact Or.inr (Or.inl (altLetters_isSome cls s (by simp [isLetterB, hcc])))
  · exact Or.inr (Or.inr (Or.inl (altNumber_isSome cls s hcc)))
  · exact Or.inr (Or.inr (Or.inr (Or.inr (Or.inr (Or.inr
      (altSpace_isSome cls s (by simp [isSpaceB, hcc])))))))
  · exact Or.inr (Or.inr (Or.inr (Or.inl (altOther_isSome cls s (by simp [isOtherB, hcc])))))

lemma matchAt_nil (cls : Nat → CharClass) : matchAt cls [] = none := rfl

lemma pretokFuel_nil (cls : Nat → CharClass) : ∀ fuel, pretokFuel cls fuel [] = [] := by
  intro fuel
  induction fuel with
  | zero => rfl
  | succ n ih =>
    simp only [pretokFuel, matchAt_nil, List.drop_nil]
    exact ih

lemma pretokFuel_flatten (cls : Nat → CharClass) :
    ∀ fuel (s : TokStr), s.length ≤ fuel → (pretokFuel cls fuel s).flatten = s := by
  intro fuel
  induction fuel with
  | zero =>
    intro s hs
    have : s = [] := List.eq_nil_of_length_eq_zero (Nat.le_zero.mp hs)
    subst this
    rfl
  | succ n ih =>
    intro s hs
    cases s with
    | nil => rw [pretokFuel_nil]; rfl
    | cons c rest =>
      have hsome := matchAt_isSome cls c rest
      rcases Option.isSome_iff_exists.mp hsome with ⟨k, hk⟩
      have hk1 : 1 ≤ k := matchAt_pos cls hk
      simp only [pretokFuel, hk]
      simp only [List.flatten_cons]
      rw [ih ((c :: rest).drop k) (by simp at hs ⊢; omega)]
      exact List.take_append_drop k (c :: rest)

/-- Every character of every chunk comes from the input string. -/
lemma mem_of_mem_pretokenize (cls : Nat → CharClass) {s chunk : TokStr} {c : Nat}
    (hch : chunk ∈ pretokenize cls s) (hc : c ∈ chunk) : c ∈ s := by
  have h := pretokFuel_flatten cls s.length s le_rfl
  rw [← h]
  exact List.mem_flatten.mpr ⟨chunk, hch, hc⟩

/-- Restatement of the segmentation concatenation fact for `pretokenize`. -/
lemma pretokenize_flatten (cls : Nat → CharClass) (s : TokStr) :
    (pretokenize cls s).flatten = s :=
  pretokFuel_flatten cls s.length s le_rfl

/-- C6: concatenating the chunks returned by `pretokenize` reproduces the
input string exactly — the segmentation is lossless, exhaustive and
non-overlapping, for every string and every character classification. -/
theorem pretokenize_flatten_eq (cls : Nat → CharClass) (s : TokStr) :
    (pretokenize cls s).flatten = s :=
  pretokFuel_flatten cls s.length s le_rfl

/-! ## Claims C7 and C10 -/

/-- C7: with only the rule `(A, A) → X`, both the encoder's merge
application and the trainer's rewrite turn `[A, A, A]` into `[X, A]` and
never into `[A, X]`: after a pair is consumed the scan resumes after both
of its elements, so the shared middle `A` is never double-merged. -/
theorem overlap_left_to_right (A X : Nat) (h : X ≠ A) :
    applyMerges [((A, A), X)] [A, A, A] = [X, A] ∧
    applyMerges [((A, A), X)] [A, A, A] ≠ [A, X] ∧
    mergeChunk (A, A) X [A, A, A] = [X, A] ∧
    mergeChunk (A, A) X [A, A, A] ≠ [A, X] := by
  have hne : ((A, A) : Nat × Nat) ≠ (X, A) := by
    intro hc
    exact h (Prod.ext_iff.mp hc).1.symm
  have e1 : applyMerges [((A, A), X)] [A, A, A] = [X, A] := by
    simp [applyMerges, applyMergesFuel, findBest, indexedPairs, mergeMapGet, rankOf,
      List.find?, hne]
  have e2 : mergeChunk (A, A) X [A, A, A] = [X, A] := by
    simp [mergeChunk]
  refine ⟨e1, ?_, e2, ?_⟩
  · rw [e1]
    intro hc
    injection hc with h1 h2
    exact h h1
  · rw [e2]
    intro hc
    injection hc with h1 h2
    exact h h1

/-- Witness for C7 at `A = 5`, `X = 260`. -/
theorem overlap_left_to_right_witness :
    (260 : Nat) ≠ 5 ∧ applyMerges [((5, 5), 260)] [5, 5, 5] = [260, 5] :=
  ⟨by decide, (overlap_left_to_right 5 260 (by decide)).1⟩

/-- C10: `Tokenizer.id_to_token_str` has only a docstring for a body, so
it returns `None` for every id, including ids present in the
vocabulary. -/
theorem id_to_token_str_none (tok : Tokenizer) (i : Nat) : idToTokenStr tok i = none := rfl

/-! ## Claim C3: the concrete scenario

In the code the base id of byte `b` is `b + 4`, so the claimed base ids
`[104, 101, 108, 108, 111]` (the raw bytes of `"hello"`) and rule
`(104, 101) → 260` (which actually pairs the byte tokens `"d"` and `"a"`)
do not match the program. -/

/-- Counterexample to C3 as stated: with the rule `(104, 101) → 260`,
encoding `"hello"` maps the chunk to base ids `[108, 105, 112, 112, 115]`
(byte value + 4), not `[104, 101, 108, 108, 111]`; the merge never
applies, so encode does not return `[260, 108, 108, 111]`; and decoding
`[260, 108, 108, 111]` yields `"dahhk"`, not `"hello"`. -/
theorem concrete_scenario_counterexample :
    encode lettersCls (mkTokenizer [((104, 101), 260)]) [104, 101, 108, 108, 111] false =
      Except.ok [108, 105, 112, 112, 115] ∧
    ([108, 105, 112, 112, 115] : List Nat) ≠ [104, 101, 108, 108, 111] ∧
    ([108, 105, 112, 112, 115] : List Nat) ≠ [260, 108, 108, 111] ∧
    decode (mkTokenizer [((104, 101), 260)]) [260, 108, 108, 111] true =
      Except.ok [100, 97, 104, 104, 107] ∧
    ([100, 97, 104, 104, 107] : TokStr) ≠ [104, 101, 108, 108, 111] :=
  ⟨rfl, by decide, by decide, rfl, by decide⟩

/-- C3 (amended): with the base vocabulary plus the single learned rule
`(108, 105) → 260` (the base ids of the bytes of `"h"`, `"e"`, which per
§4.2 are byte value + 4), `encode("hello")` first maps the chunk to base
ids `[108, 105, 112, 112, 115]`, the merge yields `[260, 112, 112, 115]`,
and `decode([260, 112, 112, 115])` returns `"hello"`. -/
theorem concrete_scenario_amended :
    textToIds (mkTokenizer [((108, 105), 260)]).vocab [104, 101, 108, 108, 111] =
      Except.ok [108, 105, 112, 112, 115] ∧
    encode lettersCls (mkTokenizer [((108, 105), 260)]) [104, 101, 108, 108, 111] false =
      Except.ok [260, 112, 112, 115] ∧
    decode (mkTokenizer [((108, 105), 260)]) [260, 112, 112, 115] true =
      Except.ok [104, 101, 108, 108, 111] :=
  ⟨rfl, rfl, rfl⟩

/-! ## Claim C5: loading merge records -/

/-- Counterexample to C5 as stated: the single line `"a b c"` splits into
exactly three fields, so `int` is applied and raises `ValueError`,
aborting the load instead of skipping the record. -/
theorem malformed_record_counterexample :
    loadMerges [[97, 32, 98, 32, 99]] = Except.error () := rfl

lemma mapM_pyInt_length : ∀ {parts : List TokStr} {vals : List Int},
    parts.mapM pyInt = some vals → vals.length = parts.length := by
  intro parts
  induction parts with
  | nil =>
    intro vals h
    simp only [List.mapM_nil, pure] at h
    cases h
    rfl
  | cons p ps ih =>
    intro vals h
    rw [List.mapM_cons] at h
    cases hp : pyInt p with
    | none => rw [hp] at h; cases h
    | some a =>
      rw [hp] at h
      cases hps : ps.mapM pyInt with
      | none => rw [hps] at h; cases h
      | some l =>
        rw [hps] at h
        simp only [Option.bind_some, Option.bind_eq_bind, pure] at h
        cases h
        simp [ih hps]

lemma loadMerges_aux : ∀ (lines : List TokStr) (acc : List ((Int × Int) × Int)),
    lines.all lineOk = true →
    (lines.foldlM
      (fun acc line =>
        let parts := pySplit (pyStrip line)
        if parts.length = 3 then
          match parts.mapM pyInt with
          | some [a, b, n] => Except.ok (acc ++ [((a, b), n)])
          | _ => Except.error ()
        else Except.ok acc)
      acc : Except Unit (List ((Int × Int) × Int))) =
      Except.ok (acc ++ lines.filterMap parseRec) := by
  intro lines
  induction lines with
  | nil =>
    intro acc h
    simp [List.foldlM, pure, Except.pure]
  | cons l ls ih =>
    intro acc h
    rw [List.all_cons, Bool.and_eq_true] at h
    obtain ⟨hl, hls⟩ := h
    rw [List.foldlM_cons]
    by_cases h3 : (pySplit (pyStrip l)).length = 3
    · have hsome : ((pySplit (pyStrip l)).mapM pyInt).isSome = true := by
        unfold lineOk at hl
        simp only [h3] at hl
        simpa using hl
      rcases Option.isSome_iff_exists.mp hsome with ⟨vals, hv⟩
      have hlen : vals.length = 3 := by rw [mapM_pyInt_length hv, h3]
      match vals, hlen with
      | [a, b, n], _ =>
        simp only [h3, if_true, hv]
        rw [show (Except.ok (acc ++ [((a, b), n)]) >>=
            (fun acc2 => ls.foldlM _ acc2) : Except Unit _) =
            ls.foldlM _ (acc ++ [((a, b), n)]) from rfl]
        rw [ih (acc ++ [((a, b), n)]) hls]
        have hp : parseRec l = some ((a, b), n) := by
          unfold parseRec
          simp only [h3, if_true, hv]
        rw [List.filterMap_cons, hp]
        simp
    · simp only [if_neg h3]
      rw [show (Except.ok acc >>= (fun acc2 => ls.foldlM _ acc2) : Except Unit _) =
          ls.foldlM _ acc from rfl]
      rw [ih acc hls]
      have hp : parseRec l = none := by
        unfold parseRec
        simp only [if_neg h3]
      rw [List.filterMap_cons, hp]

/-- C5 (amended): a record that does not split into exactly three
whitespace-separated fields is skipped and loading continues; records
with exactly three integer fields are appended in file order (file order
is rank order). A three-field record with a non-integer field aborts the
load instead (see the counterexample). -/
theorem load_merges_skips_short_records (lines : List TokStr)
    (h : lines.all lineOk = true) :
    loadMerges lines = Except.ok (lines.filterMap parseRec) :=
  loadMerges_aux lines [] h

/-- Witness for the amended C5 on a file with a well-formed record, a
one-field record, an empty record and another well-formed record. -/
theorem load_merges_skips_short_records_witness :
    ([[49, 32, 50, 32, 51], [120, 120], [], [52, 32, 53, 32, 54]] : List TokStr).all
      lineOk = true ∧
    loadMerges [[49, 32, 50, 32, 51], [120, 120], [], [52, 32, 53, 32, 54]] =
      Except.ok [((1, 2), 3), ((4, 5), 6)] := by
  have h : ([[49, 32, 50, 32, 51], [120, 120], [], [52, 32, 53, 32, 54]] : List TokStr).all
      lineOk = true := by decide
  refine ⟨h, ?_⟩
  rw [load_merges_skips_short_records _ h]
  rfl

/-! ## Base vocabulary lemmas -/

lemma utf8EncodeChar_lt_256 {c : Nat} (h : c < 1114112) :
    ∀ b ∈ utf8EncodeChar c, b < 256 := by
  intro b hb
  unfold utf8EncodeChar at hb
  split at hb
  · simp at hb; omega
  · split at hb
    · simp at hb; rcases hb with hb | hb <;> omega
    · split at hb
      · simp at hb; rcases hb with hb | hb | hb <;> omega
      · simp at hb; rcases hb with hb | hb | hb | hb <;> omega

lemma utf8Encode_lt_256 {s : TokStr} (h : ∀ c ∈ s, c < 1114112) :
    ∀ b ∈ utf8Encode s, b < 256 := by
  intro b hb
  unfold utf8Encode at hb
  rcases List.mem_flatten.mp hb with ⟨l, hl, hbl⟩
  rcases List.mem_map.mp hl with ⟨c, hc, rfl⟩
  exact utf8EncodeChar_lt_256 (h c hc) b hbl

lemma range_map_rev_find :
    ∀ (n b : Nat), b < n →
      (((List.range n).map (fun x => ([x], 4 + x) : Nat → TokStr × Nat)).reverse.find?
        (fun e => decide (e.1 = [b]))) = some ([b], 4 + b) := by
  intro n
  induction n with
  | zero => intro b hb; omega
  | succ m ih =>
    intro b hb
    rw [List.range_succ, List.map_append, List.reverse_append]
    simp only [List.map_cons, List.map_nil, List.reverse_cons, List.reverse_nil,
      List.nil_append, List.cons_append, List.find?]
    by_cases hbm : b = m
    · subst hbm
      simp
    · have : (decide (([m] : TokStr) = [b])) = false := by
        simp
        intro hc
        exact absurd hc.symm hbm
      rw [this]
      exact ih b (by omega)

lemma range_map_rev_find_id :
    ∀ (n b : Nat), b < n →
      (((List.range n).map (fun x => ([x], 4 + x) : Nat → TokStr × Nat)).reverse.find?
        (fun e => decide (e.2 = 4 + b))) = some ([b], 4 + b) := by
  intro n
  induction n with
  | zero => intro b hb; omega
  | succ m ih =>
    intro b hb
    rw [List.range_succ, List.map_append, List.reverse_append]
    simp only [List.map_cons, List.map_nil, List.reverse_cons, List.reverse_nil,
      List.nil_append, List.cons_append, List.find?]
    by_cases hbm : b = m
    · subst hbm
      simp
    · have : (decide (4 + m = 4 + b)) = false := by
        simp
        omega
      rw [this]
      exact ih b (by omega)

lemma byteToId_base {b : Nat} (hb : b < 256) : byteToId baseVocab b = some (4 + b) := by
  unfold byteToId baseVocab
  rw [if_pos hb]
  rw [List.reverse_append, List.find?_append, range_map_rev_find 256 b hb]
  rfl

lemma lookById_base_byte {b : Nat} (hb : b < 256) :
    lookById baseVocab (4 + b) = some [b] := by
  unfold lookById baseVocab
  rw [List.reverse_append, List.find?_append, range_map_rev_find_id 256 b hb]
  rfl

lemma baseVocab_length : baseVocab.length = 260 := by
  simp [baseVocab, specialTokensList]

lemma textToIds_ok {voc : Vocab} :
    ∀ (bs : List Nat), (∀ b ∈ bs, byteToId voc b = some (4 + b)) →
      (bs.mapM (fun b => match byteToId voc b with
        | some i => Except.ok i
        | none => Except.error ()) : Except Unit (List Nat)) =
        Except.ok (bs.map (fun b => 4 + b)) := by
  intro bs
  induction bs with
  | nil => intro h; rfl
  | cons b rest ih =>
    intro h
    rw [List.mapM_cons]
    rw [h b (List.mem_cons_self b rest)]
    rw [show ((Except.ok (4 + b) : Except Unit Nat) >>= fun x =>
        (rest.mapM _ >>= fun xs => pure (x :: xs))) =
        (rest.mapM _ >>= fun xs => pure ((4 + b) :: xs)) from rfl]
    rw [ih (fun x hx => h x (List.mem_cons_of_mem b hx))]
    rfl

lemma textToIds_base {chunk : TokStr} (h : ∀ c ∈ chunk, c < 1114112) :
    textToIds baseVocab chunk = Except.ok ((utf8Encode chunk).map (fun b => 4 + b)) := by
  unfold textToIds
  exact textToIds_ok (utf8Encode chunk)
    (fun b hb => byteToId_base (utf8Encode_lt_256 h b hb))

/-! ## Claim C9: training aborts when the target size allows no merges -/

lemma mapM_textToIds_ok :
    ∀ (chunks : List TokStr), (∀ ch ∈ chunks, ∀ c ∈ ch, c < 1114112) →
      (chunks.mapM (textToIds baseVocab) : Except Unit (List (List Nat))) =
        Except.ok (chunks.map (fun ch => (utf8Encode ch).map (fun b => 4 + b))) := by
  intro chunks
  induction chunks with
  | nil => intro h; rfl
  | cons ch rest ih =>
    intro h
    rw [List.mapM_cons]
    rw [textToIds_base (h ch (List.mem_cons_self ch rest))]
    rw [show ((Except.ok ((utf8Encode ch).map (fun b => 4 + b)) : Except Unit (List Nat)) >>=
        fun x => (rest.mapM (textToIds baseVocab) >>= fun xs => pure (x :: xs))) =
        (rest.mapM (textToIds baseVocab) >>= fun xs =>
          pure (((utf8Encode ch).map (fun b => 4 + b)) :: xs)) from rfl]
    rw [ih (fun x hx c hc => h x (List.mem_cons_of_mem ch hx) c hc)]
    rfl

/-- C9: when the requested target vocabulary size is at most the base
vocabulary size 260, training aborts before performing any merge work
(the configuration-error path) and produces none of the three artifact
files. -/
theorem train_small_vocab_writes_nothing (cls : Nat → CharClass) (text : TokStr)
    (h : text.all (fun c => decide (c < 1114112)) = true) (vs : Int) (hv : vs ≤ 260) :
    train cls text vs = Except.ok none := by
  have hmem : ∀ ch ∈ pretokenize cls text, ∀ c ∈ ch, c < 1114112 := by
    intro ch hch c hc
    have := List.all_eq_true.mp h c (mem_of_mem_pretokenize cls hch hc)
    simpa using this
  unfold train
  dsimp only
  rw [mapM_textToIds_ok (pretokenize cls text) hmem]
  rw [show ∀ (l : List (List Nat)) (f : List (List Nat) → Except Unit (Option Artifacts)),
      ((Except.ok l : Except Unit (List (List Nat))) >>= f) = f l from fun l f => rfl]
  rw [baseVocab_length]
  rw [if_pos (by omega : (vs - (260 : Nat) : Int) ≤ 0)]
  rfl

/-- Witness for C9 on the text `"hi"` with requested size 100. -/
theorem train_small_vocab_writes_nothing_witness :
    ([104, 105] : TokStr).all (fun c => decide (c < 1114112)) = true ∧
    ((100 : Int) ≤ 260) ∧
    train lettersCls [104, 105] 100 = Except.ok none := by
  have h1 : ([104, 105] : TokStr).all (fun c => decide (c < 1114112)) = true := by decide
  exact ⟨h1, by decide, train_small_vocab_writes_nothing lettersCls [104, 105] h1 100
    (by decide)⟩

/-! ## Claim C2: merge application follows the spec's
rank-priority-then-leftmost rule -/

lemma indexedPairs_map_snd : ∀ (ids : List Nat) (i : Nat),
    (indexedPairs i ids).map (fun x => x.2) = adjPairs ids := by
  intro ids
  induction ids with
  | nil => intro i; rfl
  | cons a rest ih =>
    intro i
    cases rest with
    | nil => rfl
    | cons b rest2 =>
      simp only [indexedPairs, adjPairs, List.map_cons]
      rw [ih (i + 1)]

lemma indexedPairs_ge : ∀ (ids : List Nat) (i : Nat) (x : Nat × (Nat × Nat)),
    x ∈ indexedPairs i ids → i ≤ x.1 := by
  intro ids
  induction ids with
  | nil => intro i x hx; cases hx
  | cons a rest ih =>
    intro i x hx
    cases rest with
    | nil => cases hx
    | cons b rest2 =>
      rw [indexedPairs] at hx
      rcases List.mem_cons.mp hx with h | h
      · subst h; rfl
      · have := ih (i + 1) x h
        omega

lemma indexedPairs_pairwise : ∀ (ids : List Nat) (i : Nat),
    (indexedPairs i ids).Pairwise (fun a b => a.1 < b.1) := by
  intro ids
  induction ids with
  | nil => intro i; exact List.Pairwise.nil
  | cons a rest ih =>
    intro i
    cases rest with
    | nil => exact List.Pairwise.nil
    | cons b rest2 =>
      rw [indexedPairs]
      refine List.pairwise_cons.mpr ⟨?_, ih (i + 1)⟩
      intro y hy
      have := indexedPairs_ge (b :: rest2) (i + 1) y hy
      simpa using by omega

lemma indexedPairs_drop : ∀ (ids : List Nat) (i j : Nat) (q : Nat × Nat),
    (j, q) ∈ indexedPairs i ids →
      ∃ j0, j = i + j0 ∧ ids.drop j0 = q.1 :: q.2 :: ids.drop (j0 + 2) := by
  intro ids
  induction ids with
  | nil => intro i j q h; cases h
  | cons a rest ih =>
    intro i j q h
    cases rest with
    | nil => cases h
    | cons b rest2 =>
      rw [indexedPairs] at h
      rcases List.mem_cons.mp h with h | h
      · injection h with h1 h2
        subst h1
        subst h2
        exact ⟨0, by omega, rfl⟩
      · rcases ih (i + 1) j q h with ⟨j0, hj, hdrop⟩
        refine ⟨j0 + 1, by omega, ?_⟩
        simpa using hdrop

lemma indexedPairs_of_drop : ∀ (ids : List Nat) (i j0 : Nat) (q : Nat × Nat),
    ids.drop j0 = q.1 :: q.2 :: ids.drop (j0 + 2) →
      (i + j0, q) ∈ indexedPairs i ids := by
  intro ids
  induction ids with
  | nil =>
    intro i j0 q h
    rw [List.drop_nil] at h
    cases h
  | cons a rest ih =>
    intro i j0 q h
    cases j0 with
    | zero =>
      simp only [List.drop_zero] at h
      cases rest with
      | nil => cases h
      | cons b rest2 =>
        injection h with h1 h2
        injection h2 with h2 h3
        rw [indexedPairs]
        subst h1
        subst h2
        simp
    | succ j1 =>
      have h1 : rest.drop j1 = q.1 :: q.2 :: rest.drop (j1 + 2) := by
        simpa using h
      cases rest with
      | nil => rw [List.drop_nil] at h1; cases h1
      | cons b rest2 =>
        rw [indexedPairs]
        have := ih (i + 1) j1 q h1
        refine List.mem_cons.mpr (Or.inr ?_)
        have he : i + 1 + j1 = i + (j1 + 1) := by omega
        rw [← he]
        exact this

lemma minRankFold_mem (ms : Merges) : ∀ (l : List (Nat × (Nat × Nat))) acc x,
    minRankFold ms l acc = some x → x ∈ l ∨ acc = some x := by
  intro l
  induction l with
  | nil => intro acc x h; exact Or.inr h
  | cons y l ih =>
    intro acc x h
    rw [minRankFold, List.foldl_cons] at h
    cases acc with
    | none =>
      rcases ih (some y) x h with h2 | h2
      · exact Or.inl (List.mem_cons_of_mem y h2)
      · injection h2 with h2
        exact Or.inl (List.mem_cons.mpr (Or.inl h2.symm))
    | some b =>
      dsimp only at h
      by_cases hc : rankOf ms y.2 < rankOf ms b.2
      · rw [if_pos hc] at h
        rcases ih (some y) x h with h2 | h2
        · exact Or.inl (List.mem_cons_of_mem y h2)
        · injection h2 with h2
          exact Or.inl (List.mem_cons.mpr (Or.inl h2.symm))
      · rw [if_neg hc] at h
        rcases ih (some b) x h with h2 | h2
        · exact Or.inl (List.mem_cons_of_mem y h2)
        · exact Or.inr h2

lemma minRankFold_first (ms : Merges) : ∀ (l : List (Nat × (Nat × Nat))) acc x,
    minRankFold ms l acc = some x →
      (acc = some x ∧ ∀ y ∈ l, ¬ (rankOf ms y.2 < rankOf ms x.2)) ∨
      (∃ l1 l2, l = l1 ++ x :: l2 ∧
        (∀ y ∈ l1, rankOf ms x.2 < rankOf ms y.2) ∧
        (∀ b, acc = some b → rankOf ms x.2 < rankOf ms b.2) ∧
        (∀ y ∈ l2, ¬ (rankOf ms y.2 < rankOf ms x.2))) := by
  intro l
  induction l with
  | nil =>
    intro acc x h
    refine Or.inl ⟨h, ?_⟩
    intro y hy
    cases hy
  | cons y l ih =>
    intro acc x h
    rw [minRankFold, List.foldl_cons] at h
    cases acc with
    | none =>
      rcases ih (some y) x h with ⟨h1, h2⟩ | ⟨l1, l2, hsplit, hl1, hacc, hl2⟩
      · injection h1 with h1
        subst h1
        right
        refine ⟨[], l, by simp, ?_, ?_, h2⟩
        · intro z hz
          cases hz
        · intro b2 hb2
          exact Option.noConfusion hb2
      · right
        refine ⟨y :: l1, l2, by rw [hsplit]; rfl, ?_, ?_, hl2⟩
        · intro z hz
          rcases List.mem_cons.mp hz with hz | hz
          · subst hz
            exact hacc z rfl
          · exact hl1 z hz
        · intro b2 hb2
          exact Option.noConfusion hb2
    | some b =>
      dsimp only at h
      by_cases hc : rankOf ms y.2 < rankOf ms b.2
      · rw [if_pos hc] at h
        rcases ih (some y) x h with ⟨h1, h2⟩ | ⟨l1, l2, hsplit, hl1, hacc, hl2⟩
        · injection h1 with h1
          subst h1
          right
          refine ⟨[], l, by simp, ?_, ?_, h2⟩
          · intro z hz
            cases hz
          · intro b2 hb2
            injection hb2 with hb2
            subst hb2
            exact hc
        · right
          refine ⟨y :: l1, l2, by rw [hsplit]; rfl, ?_, ?_, hl2⟩
          · intro z hz
            rcases List.mem_cons.mp hz with hz | hz
            · subst hz
              exact hacc z rfl
            · exact hl1 z hz
          · intro b2 hb2
            injection hb2 with hb2
            subst hb2
            exact lt_trans (hacc y rfl) hc
      · rw [if_neg hc] at h
        rcases ih (some b) x h with ⟨h1, h2⟩ | ⟨l1, l2, hsplit, hl1, hacc, hl2⟩
        · injection h1 with h1
          subst h1
          refine Or.inl ⟨rfl, ?_⟩
          intro z hz
          rcases List.mem_cons.mp hz with hz | hz
          · subst hz
            exact hc
          · exact h2 z hz
        · right
          refine ⟨y :: l1, l2, by rw [hsplit]; rfl, ?_, ?_, hl2⟩
          · intro z hz
            rcases List.mem_cons.mp hz with hz | hz
            · subst hz
              have := hacc b rfl
              omega
            · exact hl1 z hz
          · exact hacc

lemma findBest_fold_filter (ms : Merges) :
    ∀ (l : List (Nat × (Nat × Nat))) (acc : Option ((Nat × Nat) × Nat × Nat × Nat)),
      l.foldl
        (fun best pp =>
          match mergeMapGet ms pp.2 with
          | none => best
          | some nid =>
            match best with
            | none => some (pp.2, nid, pp.1, rankOf ms pp.2)
            | some b =>
              if rankOf ms pp.2 < b.2.2.2 then some (pp.2, nid, pp.1, rankOf ms pp.2)
              else best)
        acc
      = (l.filter (presentB ms)).foldl
          (fun best x =>
            match best with
            | none => some (dRec ms x)
            | some b => if rankOf ms x.2 < b.2.2.2 then some (dRec ms x) else best)
          acc := by
  intro l
  induction l with
  | nil => intro acc; rfl
  | cons x l ih =>
    intro acc
    rw [List.foldl_cons]
    cases hm : mergeMapGet ms x.2 with
    | none =>
      have hp : presentB ms x = false := by simp [presentB, hm]
      rw [List.filter_cons_of_neg (by simp [hp])]
      exact ih acc
    | some nid =>
      have hp : presentB ms x = true := by simp [presentB, hm]
      rw [List.filter_cons_of_pos (by rw [hp]), List.foldl_cons]
      have hd : dRec ms x = (x.2, nid, x.1, rankOf ms x.2) := by
        simp [dRec, hm]
      rw [ih]
      congr 1
      cases acc with
      | none => simp [hd]
      | some b => simp [hd]

lemma code_fold_d (ms : Merges) :
    ∀ (l : List (Nat × (Nat × Nat))) (acc : Option (Nat × (Nat × Nat))),
      l.foldl
        (fun best x =>
          match best with
          | none => some (dRec ms x)
          | some b => if rankOf ms x.2 < b.2.2.2 then some (dRec ms x) else best)
        (acc.map (dRec ms))
      = (minRankFold ms l acc).map (dRec ms) := by
  intro l
  induction l with
  | nil => intro acc; rfl
  | cons x l ih =>
    intro acc
    rw [List.foldl_cons, minRankFold, List.foldl_cons]
    cases acc with
    | none => exact ih (some x)
    | some b =>
      dsimp only [Option.map_some']
      have hr : (dRec ms b).2.2.2 = rankOf ms b.2 := rfl
      rw [hr]
      by_cases hc : rankOf ms x.2 < rankOf ms b.2
      · rw [if_pos hc, if_pos hc]
        exact ih (some x)
      · rw [if_neg hc, if_neg hc]
        exact ih (some b)

lemma spec_fold_snd (ms : Merges) :
    ∀ (l : List (Nat × (Nat × Nat))) (acc : Option (Nat × (Nat × Nat))),
      l.foldl
        (fun best x =>
          match best with
          | none => some x.2
          | some q => if rankOf ms x.2 < rankOf ms q then some x.2 else best)
        (acc.map (fun x => x.2))
      = (minRankFold ms l acc).map (fun x => x.2) := by
  intro l
  induction l with
  | nil => intro acc; rfl
  | cons x l ih =>
    intro acc
    rw [List.foldl_cons, minRankFold, List.foldl_cons]
    cases acc with
    | none => exact ih (some x)
    | some b =>
      dsimp only [Option.map_some']
      by_cases hc : rankOf ms x.2 < rankOf ms b.2
      · rw [if_pos hc, if_pos hc]
        exact ih (some x)
      · rw [if_neg hc, if_neg hc]
        exact ih (some b)

lemma findBest_eq (ms : Merges) (ids : List Nat) :
    findBest ms ids =
      (minRankFold ms ((indexedPairs 0 ids).filter (presentB ms)) none).map (dRec ms) := by
  rw [findBest, findBest_fold_filter ms]
  exact code_fold_d ms ((indexedPairs 0 ids).filter (presentB ms)) none

lemma specBestPair_eq (ms : Merges) (ids : List Nat) :
    specBestPair ms ids =
      (minRankFold ms ((indexedPairs 0 ids).filter (presentB ms)) none).map
        (fun x => x.2) := by
  rw [specBestPair]
  have h1 : adjPairs ids = (indexedPairs 0 ids).map (fun x => x.2) :=
    (indexedPairs_map_snd ids 0).symm
  rw [h1]
  rw [List.filter_map]
  have h2 : ((fun p => (mergeMapGet ms p).isSome) ∘ fun x : Nat × (Nat × Nat) => x.2)
      = presentB ms := by
    funext x
    rfl
  rw [h2]
  rw [List.foldl_map]
  exact spec_fold_snd ms ((indexedPairs 0 ids).filter (presentB ms)) none

lemma indexedPairs_shift : ∀ (ids : List Nat) (i : Nat),
    indexedPairs (i + 1) ids = (indexedPairs i ids).map (fun y => (y.1 + 1, y.2)) := by
  intro ids
  induction ids with
  | nil => intro i; rfl
  | cons a rest ih =>
    intro i
    cases rest with
    | nil => rfl
    | cons b rest2 =>
      rw [indexedPairs, indexedPairs, List.map_cons]
      rw [ih (i + 1)]

lemma replaceLeftmost_eq_splice :
    ∀ (ids : List Nat) (pos : Nat) (p : Nat × Nat) (nid : Nat),
      (pos, p) ∈ indexedPairs 0 ids →
      (∀ y ∈ indexedPairs 0 ids, y.2 = p → pos ≤ y.1) →
      replaceLeftmost p nid ids = ids.take pos ++ nid :: ids.drop (pos + 2) := by
  intro ids
  induction ids with
  | nil => intro pos p nid hmem _; cases hmem
  | cons a rest ih =>
    intro pos p nid hmem hmin
    cases rest with
    | nil => cases hmem
    | cons b rest2 =>
      rw [indexedPairs] at hmem hmin
      rcases List.mem_cons.mp hmem with h | h
      · injection h with h1 h2
        subst h2
        subst h1
        rw [replaceLeftmost, if_pos rfl]
        rfl
      · have hpos1 : 1 ≤ pos := by
          have := indexedPairs_ge (b :: rest2) 1 (pos, p) h
          simpa using this
        have hne : (a, b) ≠ p := by
          intro hc
          have := hmin (0, (a, b)) (List.mem_cons_self _ _) hc
          omega
        rw [replaceLeftmost, if_neg hne]
        have hshift : indexedPairs 1 (b :: rest2) =
            (indexedPairs 0 (b :: rest2)).map (fun y => (y.1 + 1, y.2)) := by
          have := indexedPairs_shift (b :: rest2) 0
          simpa using this
        rcases pos with _ | pos1
        · omega
        have hmem2 : (pos1, p) ∈ indexedPairs 0 (b :: rest2) := by
          rw [hshift] at h
          rcases List.mem_map.mp h with ⟨y, hy, hyeq⟩
          injection hyeq with hy1 hy2
          have : y.1 = pos1 := by omega
          rw [← this, ← hy2]
          exact hy
        have hmin2 : ∀ y ∈ indexedPairs 0 (b :: rest2), y.2 = p → pos1 ≤ y.1 := by
          intro y hy hyp
          have hy1 : (y.1 + 1, y.2) ∈ indexedPairs 1 (b :: rest2) := by
            rw [hshift]
            exact List.mem_map.mpr ⟨y, hy, rfl⟩
          have := hmin (y.1 + 1, y.2) (List.mem_cons_of_mem _ hy1) hyp
          omega
        rw [ih pos1 p nid hmem2 hmin2]
        rfl

lemma merge_step_agree (ms : Merges) (ids : List Nat) :
    (findBest ms ids = none ∧ specBestPair ms ids = none) ∨
    (∃ p nid pos, findBest ms ids = some (p, nid, pos, rankOf ms p) ∧
      specBestPair ms ids = some p ∧
      mergeMapGet ms p = some nid ∧
      ids.drop pos = p.1 :: p.2 :: ids.drop (pos + 2) ∧
      replaceLeftmost p nid ids = ids.take pos ++ nid :: ids.drop (pos + 2)) := by
  cases hC : minRankFold ms ((indexedPairs 0 ids).filter (presentB ms)) none with
  | none =>
    left
    constructor
    · rw [findBest_eq, hC]; rfl
    · rw [specBestPair_eq, hC]; rfl
  | some x =>
    right
    have hxmem : x ∈ (indexedPairs 0 ids).filter (presentB ms) := by
      rcases minRankFold_mem ms _ none x hC with h | h
      · exact h
      · exact Option.noConfusion h
    have hxip : x ∈ indexedPairs 0 ids := List.mem_of_mem_filter hxmem
    have hxp : presentB ms x = true := List.of_mem_filter hxmem
    rcases Option.isSome_iff_exists.mp (by simpa [presentB] using hxp) with ⟨nid, hnid⟩
    have hd : dRec ms x = (x.2, nid, x.1, rankOf ms x.2) := by
      simp [dRec, hnid]
    have hmin : ∀ y ∈ indexedPairs 0 ids, y.2 = x.2 → x.1 ≤ y.1 := by
      rcases minRankFold_first ms _ none x hC with ⟨h1, _⟩ | ⟨l1, l2, hsplit, hl1, _, _⟩
      · exact Option.noConfusion h1
      · intro y hy hyp
        have hyf : y ∈ (indexedPairs 0 ids).filter (presentB ms) := by
          refine List.mem_filter.mpr ⟨hy, ?_⟩
          rw [show presentB ms y = presentB ms x from by simp [presentB, hyp]]
          exact hxp
        have hpw : ((indexedPairs 0 ids).filter (presentB ms)).Pairwise
            (fun a b => a.1 < b.1) :=
          List.Pairwise.filter _ (indexedPairs_pairwise ids 0)
        rw [hsplit] at hyf hpw
        rcases List.mem_append.mp hyf with hy1 | hy2
        · have := hl1 y hy1
          rw [hyp] at this
          omega
        · rcases List.mem_cons.mp hy2 with hyx | hy2
          · rw [hyx]
          · have hx2 := (List.pairwise_append.mp hpw).2.1
            have := (List.pairwise_cons.mp hx2).1 y hy2
            omega
    rcases indexedPairs_drop ids 0 x.1 x.2 (by simpa using hxip) with ⟨j0, hj, hdrop⟩
    have hj0 : j0 = x.1 := by omega
    subst hj0
    refine ⟨x.2, nid, x.1, ?_, ?_, hnid, hdrop, ?_⟩
    · rw [findBest_eq, hC]
      simp [hd]
    · rw [specBestPair_eq, hC]
      rfl
    · exact replaceLeftmost_eq_splice ids x.1 x.2 nid (by simpa using hxip) hmin

lemma applyFuel_eq_specFuel (ms : Merges) : ∀ (fuel : Nat) (ids : List Nat),
    applyMergesFuel ms fuel ids = specApplyMergesFuel ms fuel ids := by
  intro fuel
  induction fuel with
  | zero => intro ids; rfl
  | succ n ih =>
    intro ids
    rcases merge_step_agree ms ids with ⟨hf, hs⟩ | ⟨p, nid, pos, hf, hs, hm, hdrop, hrepl⟩
    · simp only [applyMergesFuel, specApplyMergesFuel, hf, hs]
      split <;> rfl
    · have h2 : 2 ≤ ids.length := by
        have := congrArg List.length hdrop
        simp only [List.length_drop, List.length_cons] at this
        omega
      simp only [applyMergesFuel, specApplyMergesFuel, hf, hs, hm, if_pos h2]
      rw [hrepl]
      exact ih (ids.take pos ++ nid :: ids.drop (pos + 2))

/-- C2: within a chunk the encoder's `_apply_merges` implements exactly
the spec's rule (§4.4): repeatedly select, among all adjacent pairs
present in the sequence, the pair whose merge rule has the lowest rank
(earliest learned); stop when no present pair has a rule; otherwise
replace the leftmost occurrence of that pair with the rule's `new_id` and
repeat. In particular rank priority dominates position, since the
selected pair minimizes rank over all present pairs regardless of where
it occurs. -/
theorem apply_merges_follows_spec (ms : Merges) (ids : List Nat) :
    applyMerges ms ids = specApplyMerges ms ids :=
  applyFuel_eq_specFuel ms ids.length ids

/-! ## Claim C8: decode never raises -/

lemma mapM_ok_of_forall (f : Nat → Except Unit TokStr) :
    ∀ (l : List Nat), (∀ i ∈ l, ∃ t, f i = Except.ok t) →
      ∃ ts, l.mapM f = Except.ok ts := by
  intro l
  induction l with
  | nil => intro h; exact ⟨[], rfl⟩
  | cons i rest ih =>
    intro h
    rcases h i (List.mem_cons_self i rest) with ⟨t, ht⟩
    rcases ih (fun j hj => h j (List.mem_cons_of_mem i hj)) with ⟨ts, hts⟩
    refine ⟨t :: ts, ?_⟩
    rw [List.mapM_cons, ht]
    rw [show ((Except.ok t : Except Unit TokStr) >>= fun x =>
        (rest.mapM f >>= fun xs => pure (x :: xs))) =
        (rest.mapM f >>= fun xs => pure (t :: xs)) from rfl]
    rw [hts]
    rfl

/-- C8: `decode` never raises for any list of ids, for any tokenizer whose
special tokens include `<UNK>` with a token string in the vocabulary: an
id absent from the reverse vocabulary is substituted by the `<UNK>`
symbol's string; an exception in the final latin-1 re-encoding is caught
and the concatenated token text returned as a best-effort fallback; and
invalid UTF-8 after byte reassembly becomes the replacement character
U+FFFD rather than an error. -/
theorem decode_never_raises (tok : Tokenizer) (u : Nat) (unkTok : TokStr)
    (h1 : dictGet tok.specialTokens unkName = some u)
    (h2 : lookById tok.vocab u = some unkTok) :
    (∀ (ids : List Nat) (skip : Bool), ∃ out, decode tok ids skip = Except.ok out) ∧
    (∀ i, lookById tok.vocab i = none → tokenFor tok i = Except.ok unkTok) ∧
    (∀ text, latin1Encode text = none → finalStage text = text) ∧
    utf8DecodeReplace [255] = [65533] := by
  have htok : ∀ i, ∃ t, tokenFor tok i = Except.ok t := by
    intro i
    unfold tokenFor
    cases hl : lookById tok.vocab i with
    | some t => exact ⟨t, rfl⟩
    | none =>
      dsimp only
      rw [h1]
      dsimp only
      rw [h2]
      exact ⟨unkTok, rfl⟩
  refine ⟨?_, ?_, ?_, rfl⟩
  · intro ids skip
    rcases mapM_ok_of_forall (tokenFor tok)
      (if skip then ids.filter
        (fun i => !((tok.specialTokens.map (fun e => e.2)).contains i)) else ids)
      (fun i _ => htok i) with ⟨ts, hts⟩
    refine ⟨finalStage ts.flatten, ?_⟩
    unfold decode
    dsimp only
    rw [hts]
    rfl
  · intro i hl
    unfold tokenFor
    rw [hl]
    dsimp only
    rw [h1]
    dsimp only
    rw [h2]
  · intro text hlat
    unfold finalStage
    rw [hlat]

/-- Witness for C8: the base tokenizer, decoding the unknown id 99999. -/
theorem decode_never_raises_witness :
    dictGet (mkTokenizer []).specialTokens unkName = some 1 ∧
    lookById (mkTokenizer []).vocab 1 = some unkName ∧
    (∃ out, decode (mkTokenizer []) [99999] true = Except.ok out) := by
  have h1 : dictGet (mkTokenizer []).specialTokens unkName = some 1 := rfl
  have h2 : lookById (mkTokenizer []).vocab 1 = some unkName := rfl
  exact ⟨h1, h2, (decode_never_raises (mkTokenizer []) 1 unkName h1 h2).1 [99999] true⟩

/-! ## UTF-8 round trip -/

lemma utf8Step_one {c : Nat} (h : c < 128) (rest : List Nat) :
    utf8Step (c :: rest) = (some c, 1) := by
  rw [utf8Step]
  rw [if_pos h]

lemma utf8Step_two {c : Nat} (h1 : 128 ≤ c) (h2 : c < 2048) (rest : List Nat) :
    utf8Step ((192 + c / 64) :: (128 + c % 64) :: rest) = (some c, 2) := by
  rw [utf8Step]
  rw [if_neg (by omega), if_pos (by omega)]
  rw [utf8Tail2]
  rw [if_pos (show isCont (128 + c % 64) = true by simp [isCont]; omega)]
  have hval : (192 + c / 64 - 192) * 64 + (128 + c % 64 - 128) = c := by omega
  rw [hval]

lemma utf8Step_three {c : Nat} (h1 : 2048 ≤ c) (h2 : c < 65536)
    (hs : c < 55296 ∨ 57343 < c) (rest : List Nat) :
    utf8Step ((224 + c / 4096) :: (128 + c / 64 % 64) :: (128 + c % 64) :: rest) =
      (some c, 3) := by
  rw [utf8Step]
  rw [if_neg (by omega), if_neg (by omega), if_pos (by omega)]
  rw [utf8Tail3]
  have hlo : (if 224 + c / 4096 = 224 then 160 else 128) ≤ 128 + c / 64 % 64 := by
    split_ifs with h <;> omega
  have hhi : 128 + c / 64 % 64 ≤ if 224 + c / 4096 = 237 then 159 else 191 := by
    split_ifs with h <;> omega
  rw [if_pos (And.intro hlo hhi)]
  rw [utf8Tail3b]
  rw [if_pos (show isCont (128 + c % 64) = true by simp [isCont]; omega)]
  have hval : (224 + c / 4096 - 224) * 4096 + (128 + c / 64 % 64 - 128) * 64 +
      (128 + c % 64 - 128) = c := by omega
  rw [hval]

lemma utf8Step_four {c : Nat} (h1 : 65536 ≤ c) (h2 : c < 1114112) (rest : List Nat) :
    utf8Step ((240 + c / 262144) :: (128 + c / 4096 % 64) :: (128 + c / 64 % 64) ::
      (128 + c % 64) :: rest) = (some c, 4) := by
  rw [utf8Step]
  rw [if_neg (by omega), if_neg (by omega), if_neg (by omega), if_pos (by omega)]
  rw [utf8Tail4]
  have hlo : (if 240 + c / 262144 = 240 then 144 else 128) ≤ 128 + c / 4096 % 64 := by
    split_ifs with h <;> omega
  have hhi : 128 + c / 4096 % 64 ≤ if 240 + c / 262144 = 244 then 143 else 191 := by
    split_ifs with h <;> omega
  rw [if_pos (And.intro hlo hhi)]
  rw [utf8Tail4b]
  rw [if_pos (show isCont (128 + c / 64 % 64) = true by simp [isCont]; omega)]
  rw [utf8Tail4c]
  rw [if_pos (show isCont (128 + c % 64) = true by simp [isCont]; omega)]
  have hval : (240 + c / 262144 - 240) * 262144 + (128 + c / 4096 % 64 - 128) * 4096 +
      (128 + c / 64 % 64 - 128) * 64 + (128 + c % 64 - 128) = c := by omega
  rw [hval]

lemma utf8Step_encode {c : Nat} (h : isValidScalar c = true) (rest : List Nat) :
    utf8Step (utf8EncodeChar c ++ rest) = (some c, (utf8EncodeChar c).length) := by
  have hv : c < 55296 ∨ (57343 < c ∧ c < 1114112) := by
    simpa [isValidScalar] using h
  by_cases h1 : c < 128
  · simp only [utf8EncodeChar, if_pos h1]
    simpa using utf8Step_one h1 rest
  · by_cases h2 : c < 2048
    · simp only [utf8EncodeChar, if_neg h1, if_pos h2]
      simpa using utf8Step_two (by omega) h2 rest
    · by_cases h3 : c < 65536
      · simp only [utf8EncodeChar, if_neg h1, if_neg h2, if_pos h3]
        simpa using utf8Step_three (by omega) h3 (by omega) rest
      · simp only [utf8EncodeChar, if_neg h1, if_neg h2, if_neg h3]
        simpa using utf8Step_four (by omega) (by omega) rest

lemma utf8EncodeChar_ne_nil (c : Nat) : utf8EncodeChar c ≠ [] := by
  unfold utf8EncodeChar
  split_ifs <;> simp

lemma utf8_decode_encode : ∀ (s : TokStr), (∀ c ∈ s, isValidScalar c = true) →
    ∀ fuel, (utf8Encode s).length ≤ fuel →
      utf8DecodeReplaceFuel fuel (utf8Encode s) = s := by
  intro s
  induction s with
  | nil =>
    intro h fuel hf
    cases fuel <;> rfl
  | cons c s2 ih =>
    intro h fuel hf
    have henc : utf8Encode (c :: s2) = utf8EncodeChar c ++ utf8Encode s2 := by
      simp [utf8Encode]
    rw [henc] at hf ⊢
    have hstep := utf8Step_encode (h c (List.mem_cons_self c s2)) (utf8Encode s2)
    cases fuel with
    | zero =>
      exfalso
      have := utf8EncodeChar_ne_nil c
      rw [List.length_append] at hf
      have : 1 ≤ (utf8EncodeChar c).length := by
        cases hc : utf8EncodeChar c with
        | nil => exact absurd hc (utf8EncodeChar_ne_nil c)
        | cons _ _ => simp
      omega
    | succ f =>
      cases hc : utf8EncodeChar c with
      | nil => exact absurd hc (utf8EncodeChar_ne_nil c)
      | cons b tail =>
        rw [hc] at hstep
        rw [List.cons_append]
        rw [List.cons_append] at hstep
        simp only [utf8DecodeReplaceFuel]
        rw [hstep]
        simp only [Option.getD_some]
        rw [← List.cons_append, List.drop_left]
        congr 1
        apply ih (fun d hd => h d (List.mem_cons_of_mem c hd)) f
        rw [hc, List.length_append] at hf
        simp only [List.length_cons] at hf ⊢
        omega

lemma utf8DecodeReplace_encode {s : TokStr} (h : ∀ c ∈ s, isValidScalar c = true) :
    utf8DecodeReplace (utf8Encode s) = s :=
  utf8_decode_encode s h _ le_rfl

/-! ## The vocabulary built from recorded merges -/

lemma lookById_mem {voc : Vocab} {i : Nat} {t : TokStr}
    (h : lookById voc i = some t) : (t, i) ∈ voc := by
  unfold lookById at h
  cases hf : voc.reverse.find? (fun e => decide (e.2 = i)) with
  | none => rw [hf] at h; cases h
  | some e =>
    rw [hf] at h
    injection h with h
    have hmem : e ∈ voc := List.mem_reverse.mp (List.mem_of_find?_eq_some hf)
    have hp0 := List.find?_some hf
    have hp : e.2 = i := by simpa using hp0
    have he : e = (t, i) := by
      rcases e with ⟨e1, e2⟩
      simp only at h hp
      rw [h, hp]
    rw [← he]
    exact hmem

lemma dinsert_append : ∀ {voc : Vocab} {k : TokStr} {v : Nat},
    (voc.find? (fun e => decide (e.1 = k))).isNone = true →
    dinsert voc k v = voc ++ [(k, v)] := by
  intro voc
  induction voc with
  | nil => intro k v _; rfl
  | cons e rest ih =>
    intro k v h
    rcases e with ⟨k0, v0⟩
    by_cases hk : k0 = k
    · exfalso
      rw [List.find?_cons_of_pos _ (by simp [hk])] at h
      simp at h
    · rw [List.find?_cons_of_neg _ (by simp [hk])] at h
      rw [dinsert, if_neg hk, ih h]
      rfl

lemma lookById_append (voc : Vocab) (k : TokStr) (v i : Nat) :
    lookById (voc ++ [(k, v)]) i = if v = i then some k else lookById voc i := by
  unfold lookById
  rw [List.reverse_append]
  simp only [List.reverse_cons, List.reverse_nil, List.nil_append, List.cons_append,
    List.find?]
  by_cases hv : v = i
  · rw [if_pos hv]
    simp [hv]
  · rw [if_neg hv]
    rw [show (decide ((k, v).2 = i)) = false by simp [hv]]
    rfl

lemma byteToId_append (voc : Vocab) (k : TokStr) (v : Nat) (hk : k.length ≠ 1)
    (b : Nat) : byteToId (voc ++ [(k, v)]) b = byteToId voc b := by
  unfold byteToId
  by_cases hb : b < 256
  · rw [if_pos hb, if_pos hb]
    rw [List.reverse_append]
    simp only [List.reverse_cons, List.reverse_nil, List.nil_append, List.cons_append,
      List.find?]
    rw [show (decide ((k, v).1 = [b])) = false by
      simp only [decide_eq_false_iff_not]
      intro hc
      rw [hc] at hk
      simp at hk]
    rfl
  · rw [if_neg hb, if_neg hb]

lemma length_pos_of_ne_nil {l : TokStr} (h : l ≠ []) : 1 ≤ l.length := by
  cases l with
  | nil => exact absurd rfl h
  | cons a rest => simp

lemma ext_good : ∀ (ms : Merges) (voc : Vocab), GoodV voc → 260 ≤ voc.length →
    validExtB voc ms = true →
    GoodV (extendVocab voc ms) ∧
    (∀ i, (lookById voc i).isSome = true →
      lookById (extendVocab voc ms) i = lookById voc i) ∧
    (∀ b2, b2 < 256 → byteToId (extendVocab voc ms) b2 = byteToId voc b2) ∧
    (∀ m ∈ ms, ∃ ta tb, lookById (extendVocab voc ms) m.1.1 = some ta ∧
      lookById (extendVocab voc ms) m.1.2 = some tb ∧
      lookById (extendVocab voc ms) m.2 = some (ta ++ tb) ∧ 260 ≤ m.2) := by
  intro ms
  induction ms with
  | nil =>
    intro voc hgood hlen hv
    refine ⟨hgood, fun i _ => rfl, fun b _ => rfl, ?_⟩
    intro m hm
    cases hm
  | cons m rest ih =>
    intro voc hgood hlen hv
    rcases m with ⟨⟨a, b⟩, nid⟩
    rw [validExtB] at hv
    cases ha : lookById voc a with
    | none => rw [ha] at hv; cases hb : lookById voc b <;> rw [hb] at hv <;> cases hv
    | some ta =>
    cases hb : lookById voc b with
    | none => rw [ha, hb] at hv; cases hv
    | some tb =>
    rw [ha, hb] at hv
    simp only [Bool.and_eq_true, decide_eq_true_eq] at hv
    obtain ⟨⟨⟨⟨h4a, h4b⟩, hnid⟩, hfresh⟩, hrest⟩ := hv
    have hmema : (ta, a) ∈ voc := lookById_mem ha
    have hmemb : (tb, b) ∈ voc := lookById_mem hb
    have hta := hgood.tok_bytes _ hmema h4a
    have htb := hgood.tok_bytes _ hmemb h4b
    have hlen2 : (ta ++ tb).length ≠ 1 := by
      have h1 : 1 ≤ ta.length := length_pos_of_ne_nil hta.1
      have h2 : 1 ≤ tb.length := length_pos_of_ne_nil htb.1
      rw [List.length_append]
      omega
    have hext : extendVocab voc (((a, b), nid) :: rest) =
        extendVocab (voc ++ [(ta ++ tb, nid)]) rest := by
      rw [extendVocab, ha, hb]
      simp only [Option.getD_some]
      rw [dinsert_append hfresh]
    have hgood2 : GoodV (voc ++ [(ta ++ tb, nid)]) := by
      constructor
      · intro e he h4
        rcases List.mem_append.mp he with he | he
        · exact hgood.tok_bytes e he h4
        · rcases List.mem_singleton.mp he with rfl
          refine ⟨by simp [hta.1], ?_⟩
          intro c hc
          rcases List.mem_append.mp hc with hc | hc
          · exact hta.2 c hc
          · exact htb.2 c hc
      · intro e he
        rw [List.length_append]
        rcases List.mem_append.mp he with he | he
        · have := hgood.ids_lt e he
          omega
        · rcases List.mem_singleton.mp he with rfl
          simp [hnid]
    have hstab2 : ∀ i, (lookById voc i).isSome = true →
        lookById (voc ++ [(ta ++ tb, nid)]) i = lookById voc i := by
      intro i hi
      rw [lookById_append]
      rcases Option.isSome_iff_exists.mp hi with ⟨t, ht⟩
      have : nid ≠ i := by
        intro hc
        have := hgood.ids_lt _ (lookById_mem ht)
        omega
      rw [if_neg this]
    have hnew : lookById (voc ++ [(ta ++ tb, nid)]) nid = some (ta ++ tb) := by
      rw [lookById_append, if_pos rfl]
    have hrest2 : validExtB (voc ++ [(ta ++ tb, nid)]) rest = true := by
      rw [← dinsert_append hfresh]
      exact hrest
    have hlen3 : 260 ≤ (voc ++ [(ta ++ tb, nid)]).length := by
      rw [List.length_append]
      omega
    obtain ⟨ihg, ihstab, ihbyte, ihm⟩ := ih (voc ++ [(ta ++ tb, nid)]) hgood2 hlen3 hrest2
    rw [hext]
    refine ⟨ihg, ?_, ?_, ?_⟩
    · intro i hi
      rw [ihstab i (by rw [hstab2 i hi]; exact hi), hstab2 i hi]
    · intro b2 hb2
      rw [ihbyte b2 hb2, byteToId_append voc _ _ hlen2 b2]
    · intro m hm
      rcases List.mem_cons.mp hm with hm | hm
      · subst hm
        refine ⟨ta, tb, ?_, ?_, ?_, by omega⟩
        · rw [ihstab a (by rw [hstab2 a (by rw [ha]; rfl)]; rw [ha]; rfl),
            hstab2 a (by rw [ha]; rfl), ha]
        · rw [ihstab b (by rw [hstab2 b (by rw [hb]; rfl)]; rw [hb]; rfl),
            hstab2 b (by rw [hb]; rfl), hb]
        · rw [ihstab nid (by rw [hnew]; rfl), hnew]
      · rcases ihm m hm with ⟨ta2, tb2, h1, h2, h3, h4⟩
        exact ⟨ta2, tb2, h1, h2, h3, h4⟩

lemma goodV_base : GoodV baseVocab := by
  constructor
  · intro e he h4
    rcases List.mem_append.mp he with he | he
    · simp only [specialTokensList, List.mem_cons, List.mem_singleton] at he
      rcases he with rfl | rfl | rfl | rfl | he
      · simp at h4
      · simp at h4
      · simp at h4
      · simp at h4
      · cases he
    · rcases List.mem_map.mp he with ⟨b0, hb0, rfl⟩
      have hb : b0 < 256 := List.mem_range.mp hb0
      refine ⟨by simp, ?_⟩
      intro c hc
      simp only [List.mem_singleton] at hc
      subst hc
      exact hb
  · intro e he
    rw [baseVocab_length]
    rcases List.mem_append.mp he with he | he
    · simp only [specialTokensList, List.mem_cons, List.mem_singleton] at he
      rcases he with rfl | rfl | rfl | rfl | he
      · simp
      · simp
      · simp
      · simp
      · cases he
    · rcases List.mem_map.mp he with ⟨b0, hb0, rfl⟩
      have hb : b0 < 256 := List.mem_range.mp hb0
      simp only
      omega

/-- Consolidated facts about the vocabulary of `mkTokenizer ms` for a
well-formed merge list. -/
lemma mkTokenizer_vocab_facts {ms : Merges} (hm : validMerges ms = true) :
    GoodV (mkTokenizer ms).vocab ∧
    (∀ b, b < 256 → byteToId (mkTokenizer ms).vocab b = some (4 + b)) ∧
    (∀ b, b < 256 → lookById (mkTokenizer ms).vocab (4 + b) = some [b]) ∧
    (∀ m ∈ ms, ∃ ta tb, lookById (mkTokenizer ms).vocab m.1.1 = some ta ∧
      lookById (mkTokenizer ms).vocab m.1.2 = some tb ∧
      lookById (mkTokenizer ms).vocab m.2 = some (ta ++ tb) ∧ 260 ≤ m.2) := by
  obtain ⟨hg, hstab, hbyte, hmf⟩ :=
    ext_good ms baseVocab goodV_base (by rw [baseVocab_length]) hm
  refine ⟨hg, ?_, ?_, hmf⟩
  · intro b hb
    rw [show (mkTokenizer ms).vocab = extendVocab baseVocab ms from rfl]
    rw [hbyte b hb, byteToId_base hb]
  · intro b hb
    rw [show (mkTokenizer ms).vocab = extendVocab baseVocab ms from rfl]
    rw [hstab (4 + b) (by rw [lookById_base_byte hb]; rfl), lookById_base_byte hb]

/-! ## Merge application preserves the byte string -/

lemma mergeMapGet_mem {ms : Merges} {q : Nat × Nat} {nid : Nat}
    (h : mergeMapGet ms q = some nid) : (q, nid) ∈ ms := by
  unfold mergeMapGet at h
  cases hf : ms.reverse.find? (fun e => decide (e.1 = q)) with
  | none => rw [hf] at h; cases h
  | some e =>
    rw [hf] at h
    injection h with h
    have hmem : e ∈ ms := List.mem_reverse.mp (List.mem_of_find?_eq_some hf)
    have hp0 := List.find?_some hf
    have hp : e.1 = q := by simpa using hp0
    have he : e = (q, nid) := by
      rcases e with ⟨e1, e2⟩
      simp only at h hp
      rw [h, hp]
    rw [← he]
    exact hmem

lemma flatStr_append (V : Vocab) (l1 l2 : List Nat) :
    flatStr V (l1 ++ l2) = flatStr V l1 ++ flatStr V l2 := by
  simp [flatStr]

lemma applyFuel_preserve (ms : Merges) (V : Vocab)
    (hmf : ∀ m ∈ ms, ∃ ta tb, lookById V m.1.1 = some ta ∧
      lookById V m.1.2 = some tb ∧ lookById V m.2 = some (ta ++ tb) ∧ 260 ≤ m.2) :
    ∀ (fuel : Nat) (ids : List Nat),
      (∀ i ∈ ids, 4 ≤ i ∧ (lookById V i).isSome = true) →
      flatStr V (applyMergesFuel ms fuel ids) = flatStr V ids ∧
      (∀ i ∈ applyMergesFuel ms fuel ids, 4 ≤ i ∧ (lookById V i).isSome = true) := by
  intro fuel
  induction fuel with
  | zero => intro ids h; exact ⟨rfl, h⟩
  | succ n ih =>
    intro ids h
    by_cases h2 : 2 ≤ ids.length
    · rcases merge_step_agree ms ids with ⟨hf, _⟩ | ⟨p, nid, pos, hf, _, hmg, hdrop, _⟩
      · simp only [applyMergesFuel, if_pos h2, hf]
        exact ⟨trivial, h⟩
      · simp only [applyMergesFuel, if_pos h2, hf]
        have hids : ids = ids.take pos ++ (p.1 :: p.2 :: ids.drop (pos + 2)) := by
          rw [← hdrop]
          exact (List.take_append_drop pos ids).symm
        rcases hmf (p, nid) (mergeMapGet_mem hmg) with ⟨ta, tb, hpa, hpb, hpn, h260⟩
        have hvalid2 : ∀ i ∈ ids.take pos ++ nid :: ids.drop (pos + 2),
            4 ≤ i ∧ (lookById V i).isSome = true := by
          intro i hi
          rcases List.mem_append.mp hi with hi | hi
          · exact h i (List.take_subset pos ids hi)
          · rcases List.mem_cons.mp hi with rfl | hi
            · exact ⟨by omega, by rw [hpn]; rfl⟩
            · exact h i (List.drop_subset (pos + 2) ids hi)
        obtain ⟨ihflat, ihvalid⟩ := ih (ids.take pos ++ nid :: ids.drop (pos + 2)) hvalid2
        refine ⟨?_, ihvalid⟩
        rw [ihflat]
        conv_rhs => rw [hids]
        rw [flatStr_append, flatStr_append]
        congr 1
        show flatStr V (nid :: ids.drop (pos + 2)) = flatStr V (p.1 :: p.2 :: ids.drop (pos + 2))
        simp only [flatStr, List.map_cons, List.flatten_cons]
        rw [hpa, hpb, hpn]
        simp
    · simp only [applyMergesFuel, if_neg h2]
      exact ⟨trivial, h⟩

lemma flatStr_baseIds {V : Vocab} (hlook : ∀ b, b < 256 → lookById V (4 + b) = some [b]) :
    ∀ (bs : List Nat), (∀ b ∈ bs, b < 256) →
      flatStr V (bs.map (fun b => 4 + b)) = bs := by
  intro bs
  induction bs with
  | nil => intro h; rfl
  | cons b rest ih =>
    intro h
    simp only [List.map_cons, flatStr, List.flatten_cons]
    rw [hlook b (h b (List.mem_cons_self b rest))]
    simp only [Option.getD_some]
    rw [show (List.map (fun i => (lookById V i).getD []) (rest.map (fun b => 4 + b))).flatten
        = flatStr V (rest.map (fun b => 4 + b)) from rfl]
    rw [ih (fun x hx => h x (List.mem_cons_of_mem b hx))]
    rfl

lemma utf8Encode_append (s1 s2 : TokStr) :
    utf8Encode (s1 ++ s2) = utf8Encode s1 ++ utf8Encode s2 := by
  simp [utf8Encode]

lemma utf8Encode_flatten : ∀ (chunks : List TokStr),
    (chunks.map utf8Encode).flatten = utf8Encode chunks.flatten := by
  intro chunks
  induction chunks with
  | nil => rfl
  | cons ch rest ih =>
    simp only [List.map_cons, List.flatten_cons, List.flatten, utf8Encode_append, ih]

/-! ## Claim C1: the round trip -/

lemma scalar_lt {c : Nat} (h : isValidScalar c = true) : c < 1114112 := by
  simp only [isValidScalar, Bool.or_eq_true, Bool.and_eq_true, decide_eq_true_eq] at h
  omega

lemma mapM_ok {α β : Type} (f : α → Except Unit β) (g : α → β) :
    ∀ (l : List α), (∀ x ∈ l, f x = Except.ok (g x)) →
      (l.mapM f : Except Unit (List β)) = Except.ok (l.map g) := by
  intro l
  induction l with
  | nil => intro h; rfl
  | cons x rest ih =>
    intro h
    rw [List.mapM_cons, h x (List.mem_cons_self x rest)]
    rw [show ((Except.ok (g x) : Except Unit β) >>= fun y =>
        (rest.mapM f >>= fun ys => pure (y :: ys))) =
        (rest.mapM f >>= fun ys => pure (g x :: ys)) from rfl]
    rw [ih (fun y hy => h y (List.mem_cons_of_mem x hy))]
    rfl

lemma flatStr_flatten (V : Vocab) : ∀ (ls : List (List Nat)),
    flatStr V ls.flatten = (ls.map (flatStr V)).flatten := by
  intro ls
  induction ls with
  | nil => rfl
  | cons l rest ih =>
    simp only [List.flatten_cons, List.map_cons, flatStr_append, ih]

lemma filter_specials_id : ∀ (l : List Nat), (∀ i ∈ l, 4 ≤ i) →
    l.filter (fun i => !((([0, 1, 2, 3] : List Nat)).contains i)) = l := by
  intro l
  induction l with
  | nil => intro h; rfl
  | cons i rest ih =>
    intro h
    have hi := h i (List.mem_cons_self i rest)
    rw [List.filter_cons_of_pos]
    · rw [ih (fun x hx => h x (List.mem_cons_of_mem i hx))]
    · obtain ⟨j, rfl⟩ : ∃ j, i = j + 4 := ⟨i - 4, by omega⟩
      rfl

lemma encode_ok (cls : Nat → CharClass) {ms : Merges} (hm : validMerges ms = true)
    (s : TokStr) (hs : ∀ c ∈ s, isValidScalar c = true) :
    encode cls (mkTokenizer ms) s false = Except.ok
      ((pretokenize cls s).map
        (fun ch => applyMerges ms ((utf8Encode ch).map (fun b => 4 + b)))).flatten := by
  obtain ⟨hg, hbyte, hlook, hmf⟩ := mkTokenizer_vocab_facts hm
  have hchunk : ∀ ch ∈ pretokenize cls s,
      (do
        let chunkIds ← textToIds (mkTokenizer ms).vocab ch
        pure (applyMerges (mkTokenizer ms).merges chunkIds) : Except Unit (List Nat)) =
      Except.ok (applyMerges ms ((utf8Encode ch).map (fun b => 4 + b))) := by
    intro ch hch
    have hbytes : ∀ b ∈ utf8Encode ch, b < 256 :=
      utf8Encode_lt_256 (fun c hc =>
        scalar_lt (hs c (mem_of_mem_pretokenize cls hch hc)))
    have htids : textToIds (mkTokenizer ms).vocab ch =
        Except.ok ((utf8Encode ch).map (fun b => 4 + b)) := by
      unfold textToIds
      exact textToIds_ok _ (fun b hb => hbyte b (hbytes b hb))
    rw [show (do
        let chunkIds ← textToIds (mkTokenizer ms).vocab ch
        pure (applyMerges (mkTokenizer ms).merges chunkIds) : Except Unit (List Nat)) =
        (textToIds (mkTokenizer ms).vocab ch >>= fun chunkIds =>
          pure (applyMerges (mkTokenizer ms).merges chunkIds)) from rfl]
    rw [htids]
    rfl
  unfold encode
  dsimp only
  rw [mapM_ok _ _ (pretokenize cls s) hchunk]
  rfl

lemma mapM_tokenFor (tok : Tokenizer) :
    ∀ (l : List Nat), (∀ i ∈ l, (lookById tok.vocab i).isSome = true) →
      l.mapM (tokenFor tok) =
        Except.ok (l.map (fun i => (lookById tok.vocab i).getD [])) := by
  intro l h
  apply mapM_ok
  intro i hi
  rcases Option.isSome_iff_exists.mp (h i hi) with ⟨t, ht⟩
  unfold tokenFor
  rw [ht]
  simp [ht]

/-- C1: for every string of unicode scalars and every tokenizer whose
vocabulary is the base vocabulary extended by a well-formed learned merge
list, decoding the result of encoding (without special tokens, skipping
special tokens on decode) returns the input string exactly. -/
theorem encode_decode_round_trip (cls : Nat → CharClass) (ms : Merges)
    (hm : validMerges ms = true) (s : TokStr) (hs : s.all isValidScalar = true) :
    (encode cls (mkTokenizer ms) s false).bind
      (fun ids => decode (mkTokenizer ms) ids true) = Except.ok s := by
  have hsm : ∀ c ∈ s, isValidScalar c = true := fun c hc => List.all_eq_true.mp hs c hc
  obtain ⟨hg, hbyte, hlook, hmf⟩ := mkTokenizer_vocab_facts hm
  rw [encode_ok cls hm s hsm]
  rw [show (Except.ok (((pretokenize cls s).map
      (fun ch => applyMerges ms ((utf8Encode ch).map (fun b => 4 + b)))).flatten) :
        Except Unit (List Nat)).bind
      (fun ids => decode (mkTokenizer ms) ids true) =
      decode (mkTokenizer ms) (((pretokenize cls s).map
        (fun ch => applyMerges ms
          ((utf8Encode ch).map (fun b => 4 + b)))).flatten) true from rfl]
  set V := (mkTokenizer ms).vocab with hV
  set OUT := (((pretokenize cls s).map
    (fun ch => applyMerges ms ((utf8Encode ch).map (fun b => 4 + b)))).flatten) with hOUT
  have hbasevalid : ∀ ch ∈ pretokenize cls s,
      ∀ i ∈ (utf8Encode ch).map (fun b => 4 + b), 4 ≤ i ∧ (lookById V i).isSome = true := by
    intro ch hch i hi
    rcases List.mem_map.mp hi with ⟨b, hb, rfl⟩
    have hb256 : b < 256 :=
      utf8Encode_lt_256 (fun c hc =>
        scalar_lt (hsm c (mem_of_mem_pretokenize cls hch hc))) b hb
    exact ⟨by omega, by rw [hlook b hb256]; rfl⟩
  have hvalid : ∀ i ∈ OUT, 4 ≤ i ∧ (lookById V i).isSome = true := by
    intro i hi
    rw [hOUT] at hi
    rcases List.mem_flatten.mp hi with ⟨l, hl, hil⟩
    rcases List.mem_map.mp hl with ⟨ch, hch, rfl⟩
    exact (applyFuel_preserve ms V hmf _ _ (hbasevalid ch hch)).2 i hil
  have hflat : flatStr V OUT = utf8Encode s := by
    rw [hOUT, flatStr_flatten, List.map_map]
    have hmapeq : (pretokenize cls s).map
        (flatStr V ∘ fun ch => applyMerges ms ((utf8Encode ch).map (fun b => 4 + b))) =
        (pretokenize cls s).map utf8Encode := by
      apply List.map_congr_left
      intro ch hch
      show flatStr V (applyMerges ms
        ((utf8Encode ch).map (fun b => 4 + b))) = utf8Encode ch
      rw [show applyMerges ms ((utf8Encode ch).map (fun b => 4 + b)) =
          applyMergesFuel ms ((utf8Encode ch).map (fun b => 4 + b)).length
            ((utf8Encode ch).map (fun b => 4 + b)) from rfl]
      rw [(applyFuel_preserve ms V hmf _ _ (hbasevalid ch hch)).1]
      exact flatStr_baseIds hlook (utf8Encode ch)
        (utf8Encode_lt_256 (fun c hc =>
          scalar_lt (hsm c (mem_of_mem_pretokenize cls hch hc))))
    rw [hmapeq, utf8Encode_flatten, pretokenize_flatten cls s]
  unfold decode
  dsimp only
  rw [show ((mkTokenizer ms).specialTokens.map (fun e => e.2)) = [0, 1, 2, 3] from rfl]
  rw [if_pos rfl]
  rw [filter_specials_id OUT (fun i hi => (hvalid i hi).1)]
  rw [mapM_tokenFor (mkTokenizer ms) OUT (fun i hi => (hvalid i hi).2)]
  rw [show ((Except.ok (OUT.map (fun i => (lookById (mkTokenizer ms).vocab i).getD [])) :
      Except Unit (List TokStr)) >>= fun tokens => pure (finalStage tokens.flatten)) =
      (pure (finalStage (OUT.map (fun i =>
        (lookById (mkTokenizer ms).vocab i).getD [])).flatten) :
        Except Unit TokStr) from rfl]
  rw [show (OUT.map (fun i => (lookById (mkTokenizer ms).vocab i).getD [])).flatten =
      flatStr V OUT from rfl]
  rw [hflat]
  unfold finalStage
  rw [show latin1Encode (utf8Encode s) = some (utf8Encode s) from by
    unfold latin1Encode
    rw [if_pos]
    rw [List.all_eq_true]
    intro b hb
    simpa using utf8Encode_lt_256 (fun c hc => scalar_lt (hsm c hc)) b hb]
  show (pure (utf8DecodeReplace (utf8Encode s)) : Except Unit TokStr) = Except.ok s
  rw [utf8DecodeReplace_encode hsm]
  rfl

set_option maxRecDepth 4000 in
/-- Witness for the round trip at a concrete input: one learned rule merging the
byte tokens of "he" (base ids 108 and 105) into id 260, applied to "hello". -/
theorem encode_decode_round_trip_witness :
    validMerges [((108, 105), 260)] = true ∧
    ([104, 101, 108, 108, 111] : TokStr).all isValidScalar = true ∧
    (encode lettersCls (mkTokenizer [((108, 105), 260)])
        [104, 101, 108, 108, 111] false).bind
      (fun ids => decode (mkTokenizer [((108, 105), 260)]) ids true) =
      Except.ok [104, 101, 108, 108, 111] :=
  ⟨by decide, by decide,
    encode_decode_round_trip lettersCls [((108, 105), 260)] (by decide)
      [104, 101, 108, 108, 111] (by decide)⟩

end BPE
